import Mathlib

/-!
Verification of the `b_trees` AVL tree library.

The Rust type `Option<Box<Node<T>>>` is embedded as the inductive `Node α`
with constructor `nil` for `None` and `node` for `Some(box Node ...)`.
The `height` field is the cached `i32` height stored in each node (modelled
as `Int`); it is distinct from the true structural height `trueHeight`.
All operations are transliterated from `src/node.rs` and `src/avl/mod.rs`.
-/

namespace BTrees

inductive Node (α : Type) : Type where
  | nil : Node α
  | node (height : Int) (val : α) (left : Node α) (right : Node α) : Node α
deriving Repr, DecidableEq

namespace Node

variable {α : Type}

/-- The cached height of an optional node: `.map(|n| n.height).unwrap_or(0)`. -/
def heightOf : Node α → Int
  | nil => 0
  | node h _ _ _ => h

/-- Number of stored elements (structural size, used for termination and `len` accounting). -/
def size : Node α → Nat
  | nil => 0
  | node _ _ l r => 1 + size l + size r

/-- The true structural height, computed from the shape, not the cached field. -/
def trueHeight : Node α → Nat
  | nil => 0
  | node _ _ l r => 1 + max (trueHeight l) (trueHeight r)

/-- `Node::bf`: balance factor from the cached heights of the children. -/
def bf : Node α → Int
  | nil => 0
  | node _ _ l r => heightOf l - heightOf r

/-- `Node::update_height`: recompute the cached height from the children's cached heights. -/
def updateHeight : Node α → Node α
  | nil => nil
  | node _ v l r => node (1 + max (heightOf l) (heightOf r)) v l r

/-- `Node::rotate_left`: no-op when the right child is absent. -/
def rotateLeft : Node α → Node α
  | nil => nil
  | node h v l nil => node h v l nil
  | node h v l (node rh rv rl rr) =>
      updateHeight (node rh rv (updateHeight (node h v l rl)) rr)

/-- `Node::rotate_right`: no-op when the left child is absent. -/
def rotateRight : Node α → Node α
  | nil => nil
  | node h v nil r => node h v nil r
  | node h v (node lh lv ll lr) r =>
      updateHeight (node lh lv ll (updateHeight (node h v lr r)))

/-- `Node::balance`: LR/RL double-rotation cases driven by the cached balance factor. -/
def balance (t : Node α) : Node α :=
  match t with
  | nil => nil
  | node h v l r =>
      if bf (node h v l r) > 1 then
        match l with
        | nil => node h v l r
        | node lh lv ll lr =>
            let l' := if bf (node lh lv ll lr) < 0
              then rotateLeft (node lh lv ll lr) else node lh lv ll lr
            rotateRight (node h v l' r)
      else if bf (node h v l r) < -1 then
        match r with
        | nil => node h v l r
        | node rh rv rl rr =>
            let r' := if bf (node rh rv rl rr) > 0
              then rotateRight (node rh rv rl rr) else node rh rv rl rr
            rotateLeft (node h v l r')
      else node h v l r

/-- `Node::insert` (duplicate-allowing; equal values go to the right branch),
with the `AVL::insert` empty-root case folded into the `nil` branch.
Note the source calls `update_height` and then `balance` at every level. -/
def insert [LinearOrder α] : Node α → α → Node α
  | nil, v => node 1 v nil nil
  | node h x l r, v =>
      if v < x then balance (updateHeight (node h x (insert l v) r))
      else balance (updateHeight (node h x l (insert r v)))

/-- `Node::insert_distinct`, generic over the three-way comparison (Rust's `Ord::cmp`
instance of the element type). The source calls `balance` on the unwind path but
never `update_height`. Returns whether a new node was created. -/
def insertDistinctBy (cmp : α → α → Ordering) : Node α → α → Bool × Node α
  | nil, v => (true, node 1 v nil nil)
  | node h x l r, v =>
      match cmp v x with
      | .lt =>
          let p := insertDistinctBy cmp l v
          (p.1, balance (node h x p.2 r))
      | .eq => (false, balance (node h v l r))
      | .gt =>
          let p := insertDistinctBy cmp r v
          (p.1, balance (node h x l p.2))

/-- `Node::insert_distinct` at an `Ord` element type. -/
def insertDistinct [LinearOrder α] (t : Node α) (v : α) : Bool × Node α :=
  insertDistinctBy compare t v

/-- In-order traversal as a list (the reference enumeration of stored elements). -/
def inorder : Node α → List α
  | nil => []
  | node _ v l r => inorder l ++ v :: inorder r

/-- Decidable check that every node of the structure satisfies the true AVL
balance invariant: the true heights of its children differ by at most 1. -/
def wellBalanced : Node α → Bool
  | nil => true
  | node _ _ l r =>
      (((trueHeight l : Int) - (trueHeight r : Int)).natAbs ≤ 1 : Bool)
        && wellBalanced l && wellBalanced r

/-- `Node::find_min`: follow left children to the end (`none` on the empty tree,
matching the `AVL::min` wrapper). -/
def findMin : Node α → Option α
  | nil => none
  | node _ v l _ => some ((findMin l).getD v)

/-- `Node::find_max`: follow right children to the end. -/
def findMax : Node α → Option α
  | nil => none
  | node _ v _ r => some ((findMax r).getD v)

/-- The while-loop plus `mem::replace` inside `Node::delete`'s two-children case:
descend to the leftmost node, store `x` there, and return that node's old value. -/
def replaceLeftmost : Node α → α → α × Node α
  | nil, x => (x, nil)
  | node h v nil r, x => (v, node h x nil r)
  | node h v (node lh lv ll lr) r, x =>
      let p := replaceLeftmost (node lh lv ll lr) x
      (p.1, node h v p.2 r)

theorem size_replaceLeftmost (t : Node α) (x : α) :
    size (replaceLeftmost t x).2 = size t := by
  induction t with
  | nil => rfl
  | node h v l r ihl ihr =>
      cases l with
      | nil => rfl
      | node lh lv ll lr => simp [replaceLeftmost, size, ihl]

/-- `Node::delete`, with the `AVL`-level empty-root case folded into `nil`.
In the two-children case the deleted node's value is stashed at the leftmost
node of the right subtree and then deleted from it; `update_height` is applied
only to the freshly built node, and `balance` to every returned subtree. -/
def delete [LinearOrder α] : Node α → α → Bool × Node α
  | nil, _ => (false, nil)
  | node h x l r, v =>
      let p : Bool × Node α :=
        if v = x then
          match l, r with
          | node lh lv ll lr, node rh rv rl rr =>
              let q := replaceLeftmost (node rh rv rl rr) x
              let r2 := (delete q.2 v).2
              (true, updateHeight (node 1 q.1 (node lh lv ll lr) r2))
          | l', nil => (true, l')
          | nil, r' => (true, r')
        else if x < v then
          match r with
          | nil => (false, node h x l r)
          | node rh rv rl rr =>
              let q := delete (node rh rv rl rr) v
              (q.1, node h x l q.2)
        else
          match l with
          | nil => (false, node h x l r)
          | node lh lv ll lr =>
              let q := delete (node lh lv ll lr) v
              (q.1, node h x q.2 r)
      (p.1, balance p.2)
termination_by t _ => size t
decreasing_by
  all_goals simp [size, size_replaceLeftmost]
  all_goals omega

/-- Modelled from the spec: `Node::remove_by` is invoked by `AVL::remove_by`
(src/avl/mod.rs line 166) but its definition is not under `src/`. Per spec
section 4.2 it is the comparator-driven form of `delete`: descend by
`f(&self.val)` (`Less` means the target lies in the left subtree, as in
`contains_by`); on `Equal`, remove that node, splicing the in-order successor
in the two-children case, apply `balance` on the unwind path and return the
removed value. -/
def removeBy [LinearOrder α] : Node α → (α → Ordering) → Option α × Node α
  | nil, _ => (none, nil)
  | node h x l r, f =>
      let p : Option α × Node α :=
        match f x with
        | .eq =>
            match l, r with
            | node lh lv ll lr, node rh rv rl rr =>
                let s := (findMin (node rh rv rl rr)).getD x
                let r2 := (delete (node rh rv rl rr) s).2
                (some x, updateHeight (node 1 s (node lh lv ll lr) r2))
            | l', nil => (some x, l')
            | nil, r' => (some x, r')
        | .lt =>
            match l with
            | nil => (none, node h x l r)
            | node lh lv ll lr =>
                let q := removeBy (node lh lv ll lr) f
                (q.1, node h x q.2 r)
        | .gt =>
            match r with
            | nil => (none, node h x l r)
            | node rh rv rl rr =>
                let q := removeBy (node rh rv rl rr) f
                (q.1, node h x l q.2)
      (p.1, balance p.2)

/-- `Node::contains`. -/
def contains [LinearOrder α] : Node α → α → Bool
  | nil, _ => false
  | node _ x l r, target =>
      match compare target x with
      | .lt => contains l target
      | .eq => true
      | .gt => contains r target

/-- `Node::nearest_to` (with the `AVL::nearest_to` `Option` wrapper folded into
`nil`): on `Equal` return the value immediately; otherwise recurse only into
the subtree on the side of `target` and combine with the tie-break `f`. -/
def nearestTo [LinearOrder α] : Node α → α → (α → α → α) → Option α
  | nil, _, _ => none
  | node _ x l r, target, f =>
      some (match compare target x with
        | .eq => x
        | .gt =>
            match nearestTo r target f with
            | none => x
            | some n => f x n
        | .lt =>
            match nearestTo l target f with
            | none => x
            | some n => f x n)

/-- `Node::farthest_to` (with the `AVL::farthest_to` `Option` wrapper folded into
`nil`): on `Equal` combine both subtrees; otherwise cross toward the side away
from `target`, combining the current value with that side's recursive result. -/
def farthestTo [LinearOrder α] : Node α → α → (α → α → α) → Option α
  | nil, _, _ => none
  | node _ x l r, target, f =>
      some (match compare target x with
        | .eq =>
            match farthestTo l target f, farthestTo r target f with
            | some a, some b => f a b
            | some a, none => a
            | none, some b => b
            | none, none => x
        | .gt =>
            match farthestTo l target f with
            | none => x
            | some n => f x n
        | .lt =>
            match farthestTo r target f with
            | none => x
            | some n => f x n)

end Node

/-- Reduction of an integer into the `i32` range, modelling two's-complement
wrapping: the result lies in `[-2^31, 2^31)` and is congruent mod `2^32`. -/
def wrap32 (z : Int) : Int :=
  (z + 2 ^ 31) % 2 ^ 32 - 2 ^ 31

/-- `i32` subtraction `a - b` with release-mode overflow wrapping
(debug builds panic at the same inputs). -/
def sub32 (a b : Int) : Int :=
  wrap32 (a - b)

/-- `i32::abs` with release-mode overflow wrapping: `abs(i32::MIN)` wraps back
to `i32::MIN` (debug builds panic there). -/
def abs32 (z : Int) : Int :=
  wrap32 (if z < 0 then -z else z)

/-- `Nearness::nearer` from `impl_nearer_signed` at `i32`: the closer of two
candidates by `abs(self - target) < abs(other - target)` computed in wrapping
`i32` arithmetic; ties go to `other` (the second argument). -/
def nearer (a b target : Int) : Int :=
  if abs32 (sub32 a target) < abs32 (sub32 b target) then a else b

/-- `Nearness::farther` from `impl_nearer_signed` at `i32`: the farther of two
candidates by `abs(self - target) > abs(other - target)` computed in wrapping
`i32` arithmetic; ties go to `other` (the second argument). -/
def farther (a b target : Int) : Int :=
  if abs32 (sub32 a target) > abs32 (sub32 b target) then a else b

namespace Node

variable {α : Type}

/-- `FakeNode::init` / `FakeNode::new` of the ascending iterators (inc.rs):
the chain of nodes pushed while walking left from `t`, current node first. -/
def leftSpine : Node α → List (Node α)
  | nil => []
  | node h v l r => leftSpine l ++ [node h v l r]

/-- Mirror chain for the descending iterators (dec.rs): walk right from `t`. -/
def rightSpine : Node α → List (Node α)
  | nil => []
  | node h v l r => rightSpine r ++ [node h v l r]

/-- The right child (`nil` for `nil`), used only in termination measures. -/
def rightOf : Node α → Node α
  | nil => nil
  | node _ _ _ r => r

/-- The left child (`nil` for `nil`), used only in termination measures. -/
def leftOf : Node α → Node α
  | nil => nil
  | node _ _ l _ => l

def incMeasure (s : List (Node α)) : Nat :=
  (s.map (fun t => 1 + size (rightOf t))).sum

def decMeasure (s : List (Node α)) : Nat :=
  (s.map (fun t => 1 + size (leftOf t))).sum

theorem incMeasure_nil : incMeasure ([] : List (Node α)) = 0 := rfl

theorem decMeasure_nil : decMeasure ([] : List (Node α)) = 0 := rfl

theorem incMeasure_cons (t : Node α) (s : List (Node α)) :
    incMeasure (t :: s) = 1 + size (rightOf t) + incMeasure s := by
  simp [incMeasure]

theorem decMeasure_cons (t : Node α) (s : List (Node α)) :
    decMeasure (t :: s) = 1 + size (leftOf t) + decMeasure s := by
  simp [decMeasure]

theorem incMeasure_append (a b : List (Node α)) :
    incMeasure (a ++ b) = incMeasure a + incMeasure b := by
  induction a with
  | nil => simp [incMeasure_nil]
  | cons t a ih =>
      simp [incMeasure_cons, ih]
      omega

theorem decMeasure_append (a b : List (Node α)) :
    decMeasure (a ++ b) = decMeasure a + decMeasure b := by
  induction a with
  | nil => simp [decMeasure_nil]
  | cons t a ih =>
      simp [decMeasure_cons, ih]
      omega

theorem incMeasure_leftSpine (t : Node α) : incMeasure (leftSpine t) = size t := by
  induction t with
  | nil => rfl
  | node h v l r ihl ihr =>
      rw [leftSpine, incMeasure_append, ihl, incMeasure_cons, incMeasure_nil]
      simp [rightOf, size]
      omega

theorem decMeasure_rightSpine (t : Node α) : decMeasure (rightSpine t) = size t := by
  induction t with
  | nil => rfl
  | node h v l r ihl ihr =>
      rw [rightSpine, decMeasure_append, ihr, decMeasure_cons, decMeasure_nil]
      simp [leftOf, size]
      omega

/-- `Increasing::next` run to exhaustion: the argument is the cursor stack
(current node first, then the retained ancestor chain). Yield the current
node's value, then either rebuild a fresh left-descending chain rooted at the
right child or pop to the parent. -/
def incRun : List (Node α) → List α
  | [] => []
  | nil :: s => incRun s
  | node _ v _ r :: s => v :: incRun (leftSpine r ++ s)
termination_by s => incMeasure s
decreasing_by
  all_goals simp only [incMeasure_append, incMeasure_leftSpine, incMeasure_cons]
  all_goals simp [rightOf]

/-- `Decreasing::next` run to exhaustion (mirror of `incRun`). -/
def decRun : List (Node α) → List α
  | [] => []
  | nil :: s => decRun s
  | node _ v l _ :: s => v :: decRun (rightSpine l ++ s)
termination_by s => decMeasure s
decreasing_by
  all_goals simp only [decMeasure_append, decMeasure_rightSpine, decMeasure_cons]
  all_goals simp [leftOf]

/-- The full output of `AVL::increasing` (and of the identical-algorithm
consuming `AVL::into_increasing`): initialize with the left-descending chain
from the root, then iterate `next`. -/
def increasingList (t : Node α) : List α := incRun (leftSpine t)

/-- The full output of `AVL::decreasing` / `AVL::into_decreasing`. -/
def decreasingList (t : Node α) : List α := decRun (rightSpine t)

/-- Children pushed by `Iter::next` / `IntoIter::next`: the left child then the
right child, skipping absent ones. -/
def childList : Node α → List (Node α)
  | nil => []
  | node _ _ l r =>
      (match l with | nil => [] | node a b c d => [node a b c d]) ++
      (match r with | nil => [] | node a b c d => [node a b c d])

def iterMeasure (q : List (Node α)) : Nat :=
  (q.map (fun t => 2 * size t + 1)).sum

theorem iterMeasure_nil : iterMeasure ([] : List (Node α)) = 0 := rfl

theorem iterMeasure_cons (t : Node α) (q : List (Node α)) :
    iterMeasure (t :: q) = 2 * size t + 1 + iterMeasure q := by
  simp [iterMeasure]

theorem iterMeasure_append (a b : List (Node α)) :
    iterMeasure (a ++ b) = iterMeasure a + iterMeasure b := by
  induction a with
  | nil => simp [iterMeasure_nil]
  | cons t a ih =>
      simp [iterMeasure_cons, ih]
      omega

theorem iterMeasure_childList (t : Node α) :
    iterMeasure (childList t) ≤ 2 * size t := by
  match t with
  | nil => simp [childList, iterMeasure_nil, size]
  | node h v l r =>
      cases l <;> cases r <;>
        simp [childList, iterMeasure_cons, iterMeasure_nil, iterMeasure_append, size] <;>
        omega

theorem iterStep_lt (h : Int) (v : α) (l r : Node α) (q : List (Node α)) :
    iterMeasure (q ++ childList (node h v l r)) < iterMeasure (node h v l r :: q) := by
  have hc := iterMeasure_childList (node h v l r)
  simp only [iterMeasure_append, iterMeasure_cons] at *
  omega

/-- `Iter::next` / `IntoIter::next` run to exhaustion: a queue of nodes, popped
at the front; each popped node yields its value and enqueues its children at
the back. -/
def iterRun : List (Node α) → List α
  | [] => []
  | nil :: q => iterRun q
  | node h v l r :: q => v :: iterRun (q ++ childList (node h v l r))
termination_by q => iterMeasure q
decreasing_by
  · simp [iterMeasure_cons]
  · apply iterStep_lt

/-- The full output of `AVL::iter` / `IntoIterator::into_iter`: the queue starts
with the root when present (`LinkedList::from_iter(self.root)`). -/
def iterList (t : Node α) : List α := iterRun [t]

/-- Queue-level children: concatenation of every queued node's `childList`. -/
def childrenQ : List (Node α) → List (Node α)
  | [] => []
  | t :: q => childList t ++ childrenQ q

theorem iterMeasure_childrenQ (q : List (Node α)) :
    iterMeasure (childrenQ q) + q.length ≤ iterMeasure q := by
  induction q with
  | nil => simp [childrenQ, iterMeasure_nil]
  | cons t q ih =>
      have := iterMeasure_childList t
      simp only [childrenQ, iterMeasure_append, iterMeasure_cons, List.length_cons] at *
      omega

/-- Breadth-first enumeration by whole levels: all values of the current level
left to right, then the next level. This is a specification-side description
used to characterize the queue-based default iterator. -/
def bfsByLevels : List (Node α) → List α
  | [] => []
  | t :: q =>
      ((t :: q).filterMap (fun u => match u with | nil => none | node _ w _ _ => some w))
        ++ bfsByLevels (childrenQ (t :: q))
termination_by q => iterMeasure q
decreasing_by
  have := iterMeasure_childrenQ (t :: q)
  simp only [List.length_cons] at this
  omega

end Node

/-- The `AVL` container: an optional root and the running element count. -/
structure AVL (α : Type) where
  root : Node α
  len : Nat
deriving Repr, DecidableEq

namespace AVL

variable {α : Type}

/-- `AVL::new`. -/
def new (α : Type) : AVL α := ⟨Node.nil, 0⟩

/-- `AVL::height`: the root's cached height, 0 if empty. -/
def height : AVL α → Int
  | ⟨Node.nil, _⟩ => 0
  | ⟨Node.node h _ _ _, _⟩ => h

/-- `AVL::clear`. -/
def clear (_ : AVL α) : AVL α := ⟨Node.nil, 0⟩

/-- `AVL::insert`: always increments `len`. -/
def insert [LinearOrder α] (a : AVL α) (v : α) : AVL α :=
  ⟨a.root.insert v, a.len + 1⟩

/-- `AVL::insert_distinct` generic over the element comparison (the `Ord`
instance of the stored type): increments `len` only when a node was created. -/
def insertDistinctBy (cmp : α → α → Ordering) (a : AVL α) (v : α) : Bool × AVL α :=
  let p := Node.insertDistinctBy cmp a.root v
  (p.1, ⟨p.2, if p.1 then a.len + 1 else a.len⟩)

/-- `AVL::insert_distinct`: increments `len` only when a node was created. -/
def insertDistinct [LinearOrder α] (a : AVL α) (v : α) : Bool × AVL α :=
  let p := a.root.insertDistinct v
  (p.1, ⟨p.2, if p.1 then a.len + 1 else a.len⟩)

/-- `AVL::delete`: decrements `len` only on an actual removal. -/
def delete [LinearOrder α] (a : AVL α) (v : α) : Bool × AVL α :=
  let p := a.root.delete v
  (p.1, ⟨p.2, if p.1 then a.len - 1 else a.len⟩)

/-- `AVL::remove`: like `delete` but reporting the removed value. -/
def remove [LinearOrder α] (a : AVL α) (v : α) : Option α × AVL α :=
  let p := a.root.delete v
  ((if p.1 then some v else none), ⟨p.2, if p.1 then a.len - 1 else a.len⟩)

/-- `AVL::remove_by` (`Node::remove_by` is spec-modelled, see `Node.removeBy`). -/
def removeBy [LinearOrder α] (a : AVL α) (f : α → Ordering) : Option α × AVL α :=
  let p := a.root.removeBy f
  (p.1, ⟨p.2, if p.1.isSome then a.len - 1 else a.len⟩)

/-- `AVL::contains`. -/
def contains [LinearOrder α] (a : AVL α) (v : α) : Bool := a.root.contains v

/-- `AVL::min`. -/
def min (a : AVL α) : Option α := a.root.findMin

/-- `AVL::max`. -/
def max (a : AVL α) : Option α := a.root.findMax

/-- `AVL::nearest_to`. -/
def nearestTo [LinearOrder α] (a : AVL α) (target : α) (f : α → α → α) : Option α :=
  a.root.nearestTo target f

/-- `AVL::farthest_to`. -/
def farthestTo [LinearOrder α] (a : AVL α) (target : α) (f : α → α → α) : Option α :=
  a.root.farthestTo target f

/-- `AVL::nearest` on signed machine integers (`Nearness::nearer`). -/
def nearest (a : AVL Int) (target : Int) : Option Int :=
  a.root.nearestTo target (fun x y => nearer x y target)

/-- `AVL::farthest` on signed machine integers (`Nearness::farther`). -/
def farthest (a : AVL Int) (target : Int) : Option Int :=
  a.root.farthestTo target (fun x y => farther x y target)

/-- `AVL::union`: iterate the smaller tree with the consuming queue iterator and
insert every element (duplicate-allowing) into the larger tree. -/
def union [LinearOrder α] (a b : AVL α) : AVL α :=
  if b.len < a.len then (Node.iterList b.root).foldl insert a
  else (Node.iterList a.root).foldl insert b

end AVL

/-- One mutating operation of the tree interface, used to range over "any
sequence of operations starting from the empty tree". -/
inductive Op (α : Type) where
  | ins (v : α)
  | insD (v : α)
  | del (v : α)
  | rem (v : α)
  | remBy (f : α → Ordering)
  | clr

/-- Apply one operation to an `AVL`, discarding the reported result. -/
def applyOp [LinearOrder α] (a : AVL α) : Op α → AVL α
  | .ins v => a.insert v
  | .insD v => (a.insertDistinct v).2
  | .del v => (a.delete v).2
  | .rem v => (a.remove v).2
  | .remBy f => (a.removeBy f).2
  | .clr => a.clear

/-- The tree obtained by running a sequence of operations from the empty tree. -/
def buildAVL [LinearOrder α] (ops : List (Op α)) : AVL α :=
  ops.foldl applyOp (AVL.new α)

/-- Pre-order enumeration, written from the claim's words ("each node's value
is yielded before any value in its subtrees, and the entire left subtree is
yielded before the right subtree"); used to compare the default iterator's
actual order against the claimed one. -/
def preorderSpec {α : Type} : Node α → List α
  | .nil => []
  | .node _ v l r => v :: (preorderSpec l ++ preorderSpec r)

/-- Brute-force linear scan for the nearest element: fold `Nearness::nearer`
over a full traversal. -/
def bruteNearest (xs : List Int) (target : Int) : Option Int :=
  xs.foldl
    (fun acc x => match acc with | none => some x | some a => some (nearer a x target))
    none

/-- Brute-force linear scan for the farthest element: fold `Nearness::farther`
over a full traversal. -/
def bruteFarthest (xs : List Int) (target : Int) : Option Int :=
  xs.foldl
    (fun acc x => match acc with | none => some x | some a => some (farther a x target))
    none

/-- The `Ord` instance of `Pair` (src/lib.rs): comparison, equality and ordering
are defined strictly on the key. -/
def pairCmp {K V : Type} [LinearOrder K] (p q : K × V) : Ordering :=
  compare p.1 q.1

/-- `BTreeMap::insert`: `insert_distinct` of the `Pair` with the key-only
ordering; reports whether the key was new. -/
def mapInsert {K V : Type} [LinearOrder K] (m : AVL (K × V)) (k : K) (v : V) :
    Bool × AVL (K × V) :=
  AVL.insertDistinctBy pairCmp m (k, v)

/-- The keys of a map tree in ascending traversal order. -/
def keysOf {K V : Type} (t : Node (K × V)) : List K :=
  (Node.inorder t).map Prod.fst

/-! ### Basic facts about the in-order enumeration -/

namespace Node

variable {α : Type}

@[simp] theorem inorder_nil : inorder (nil : Node α) = [] := rfl

@[simp] theorem inorder_node (h : Int) (v : α) (l r : Node α) :
    inorder (node h v l r) = inorder l ++ v :: inorder r := rfl

theorem length_inorder (t : Node α) : (inorder t).length = size t := by
  induction t with
  | nil => rfl
  | node h v l r ihl ihr => simp [size, ihl, ihr]; omega

theorem inorder_eq_nil_iff (t : Node α) : inorder t = [] ↔ t = nil := by
  cases t with
  | nil => simp
  | node h v l r => simp

@[simp] theorem inorder_updateHeight (t : Node α) :
    inorder (updateHeight t) = inorder t := by
  cases t <;> rfl

theorem inorder_rotateLeft (t : Node α) : inorder (rotateLeft t) = inorder t := by
  match t with
  | nil => rfl
  | node h v l nil => rfl
  | node h v l (node rh rv rl rr) => simp [rotateLeft]

theorem inorder_rotateRight (t : Node α) : inorder (rotateRight t) = inorder t := by
  match t with
  | nil => rfl
  | node h v nil r => rfl
  | node h v (node lh lv ll lr) r => simp [rotateRight]

theorem inorder_balance (t : Node α) : inorder (balance t) = inorder t := by
  match t with
  | nil => rfl
  | node h v l r =>
      simp only [balance]
      split_ifs with h1 h2
      · cases l with
        | nil => rfl
        | node lh lv ll lr =>
            simp only [inorder_rotateRight]
            split_ifs <;> simp [inorder_rotateLeft]
      · cases r with
        | nil => rfl
        | node rh rv rl rr =>
            simp only [inorder_rotateLeft]
            split_ifs <;> simp [inorder_rotateRight]
      · rfl

/-- The stored elements of a subtree, as a multiset. -/
def toMS (t : Node α) : Multiset α := (inorder t : Multiset α)

@[simp] theorem toMS_nil : toMS (nil : Node α) = 0 := rfl

@[simp] theorem toMS_node (h : Int) (v : α) (l r : Node α) :
    toMS (node h v l r) = toMS l + (v ::ₘ toMS r) := by
  simp [toMS]

theorem mem_toMS (a : α) (t : Node α) : a ∈ toMS t ↔ a ∈ inorder t := by
  simp [toMS]

theorem card_toMS (t : Node α) : Multiset.card (toMS t) = size t := by
  simp [toMS, length_inorder]

theorem toMS_balance (t : Node α) : toMS (balance t) = toMS t := by
  simp [toMS, inorder_balance]

theorem toMS_updateHeight (t : Node α) : toMS (updateHeight t) = toMS t := by
  simp [toMS]

theorem toMS_eq_zero_iff (t : Node α) : toMS t = 0 ↔ t = nil := by
  rw [toMS, Multiset.coe_eq_zero, inorder_eq_nil_iff]

theorem size_eq_card (t : Node α) : size t = Multiset.card (toMS t) :=
  (card_toMS t).symm

/-! ### The in-order enumeration of a tree of the structure is non-decreasing:
order invariant, insertion, deletion -/

theorem pairwise_le_node_iff [LinearOrder α] (h : Int) (v : α) (l r : Node α) :
    (inorder (node h v l r)).Pairwise (· ≤ ·) ↔
      (inorder l).Pairwise (· ≤ ·) ∧ (inorder r).Pairwise (· ≤ ·) ∧
      (∀ a ∈ inorder l, a ≤ v) ∧ (∀ b ∈ inorder r, v ≤ b) := by
  rw [inorder_node, List.pairwise_append]
  simp only [List.pairwise_cons, List.mem_cons]
  constructor
  · rintro ⟨hl, ⟨hvr, hr⟩, hcross⟩
    exact ⟨hl, hr, fun a ha => hcross a ha v (Or.inl rfl), hvr⟩
  · rintro ⟨hl, hr, hlv, hvr⟩
    refine ⟨hl, ⟨hvr, hr⟩, ?_⟩
    rintro a ha b (rfl | hb)
    · exact hlv a ha
    · exact le_trans (hlv a ha) (hvr b hb)

theorem toMS_insert [LinearOrder α] (t : Node α) (v : α) :
    toMS (insert t v) = v ::ₘ toMS t := by
  induction t with
  | nil => simp [insert]
  | node h x l r ihl ihr =>
      rw [insert]
      split_ifs with hvx
      · rw [toMS_balance, toMS_updateHeight, toMS_node, toMS_node, ihl]
        simp only [← Multiset.singleton_add]
        abel
      · rw [toMS_balance, toMS_updateHeight, toMS_node, toMS_node, ihr]
        simp only [← Multiset.singleton_add]
        abel

theorem sorted_insert [LinearOrder α] (t : Node α) (v : α)
    (hs : (inorder t).Pairwise (· ≤ ·)) :
    (inorder (insert t v)).Pairwise (· ≤ ·) := by
  induction t with
  | nil => simp [insert]
  | node h x l r ihl ihr =>
      rw [pairwise_le_node_iff] at hs
      obtain ⟨hl, hr, hlx, hxr⟩ := hs
      rw [insert]
      split_ifs with hvx
      · rw [inorder_balance, inorder_updateHeight, pairwise_le_node_iff]
        refine ⟨ihl hl, hr, ?_, hxr⟩
        intro a ha
        rw [← mem_toMS, toMS_insert, Multiset.mem_cons, mem_toMS] at ha
        rcases ha with rfl | ha
        · exact le_of_lt hvx
        · exact hlx a ha
      · rw [inorder_balance, inorder_updateHeight, pairwise_le_node_iff]
        refine ⟨hl, ihr hr, hlx, ?_⟩
        intro b hb
        rw [← mem_toMS, toMS_insert, Multiset.mem_cons, mem_toMS] at hb
        rcases hb with rfl | hb
        · exact le_of_not_lt hvx
        · exact hxr b hb

theorem toMS_insertDistinct [LinearOrder α] (t : Node α) (v : α) :
    toMS (insertDistinct t v).2 =
      if (insertDistinct t v).1 then v ::ₘ toMS t else toMS t := by
  induction t with
  | nil => simp [insertDistinct, insertDistinctBy]
  | node h x l r ihl ihr =>
      cases hc : compare v x with
      | lt =>
          simp only [insertDistinct, insertDistinctBy, hc] at ihl ⊢
          rcases hp : insertDistinctBy compare l v with ⟨b, l'⟩
          simp only [hp] at ihl
          simp only [toMS_balance, toMS_node]
          cases b <;> simp_all
          simp only [← Multiset.singleton_add]
          abel
      | eq =>
          have hvx : v = x := by
            have hiff := compare_eq_iff_eq (a := v) (b := x)
            rw [hc] at hiff
            simpa using hiff
          subst hvx
          simp [insertDistinct, insertDistinctBy, hc, toMS_balance]
      | gt =>
          simp only [insertDistinct, insertDistinctBy, hc] at ihr ⊢
          rcases hp : insertDistinctBy compare r v with ⟨b, r'⟩
          simp only [hp] at ihr
          simp only [toMS_balance, toMS_node]
          cases b <;> simp_all
          simp only [← Multiset.singleton_add]
          abel

theorem sorted_insertDistinct [LinearOrder α] (t : Node α) (v : α)
    (hs : (inorder t).Pairwise (· ≤ ·)) :
    (inorder (insertDistinct t v).2).Pairwise (· ≤ ·) := by
  induction t with
  | nil => simp [insertDistinct, insertDistinctBy]
  | node h x l r ihl ihr =>
      rw [pairwise_le_node_iff] at hs
      obtain ⟨hl, hr, hlx, hxr⟩ := hs
      cases hc : compare v x with
      | lt =>
          have hvx : v < x := by rw [← compare_lt_iff_lt]; exact hc
          rcases hp : insertDistinctBy compare l v with ⟨b, l'⟩
          have hms := toMS_insertDistinct l v
          have hso := ihl hl
          simp only [insertDistinct, hp] at hms hso
          simp only [insertDistinct, insertDistinctBy, hc, hp]
          rw [inorder_balance, pairwise_le_node_iff]
          refine ⟨hso, hr, ?_, hxr⟩
          intro a ha
          rw [← mem_toMS, hms] at ha
          cases b with
          | true =>
              rw [if_pos rfl, Multiset.mem_cons] at ha
              rcases ha with rfl | ha
              · exact le_of_lt hvx
              · exact hlx a ((mem_toMS a l).mp ha)
          | false =>
              rw [if_neg (by simp)] at ha
              exact hlx a ((mem_toMS a l).mp ha)
      | eq =>
          have hvx : v = x := by
            have hiff := compare_eq_iff_eq (a := v) (b := x)
            rw [hc] at hiff
            simpa using hiff
          subst hvx
          simp only [insertDistinct, insertDistinctBy, hc]
          rw [inorder_balance, pairwise_le_node_iff]
          exact ⟨hl, hr, hlx, hxr⟩
      | gt =>
          have hxv : x < v := compare_gt_iff_gt.mp hc
          rcases hp : insertDistinctBy compare r v with ⟨b, r'⟩
          have hms := toMS_insertDistinct r v
          have hso := ihr hr
          simp only [insertDistinct, hp] at hms hso
          simp only [insertDistinct, insertDistinctBy, hc, hp]
          rw [inorder_balance, pairwise_le_node_iff]
          refine ⟨hl, hso, hlx, ?_⟩
          intro b' hb
          rw [← mem_toMS, hms] at hb
          cases b with
          | true =>
              rw [if_pos rfl, Multiset.mem_cons] at hb
              rcases hb with rfl | hb
              · exact le_of_lt hxv
              · exact hxr b' ((mem_toMS b' r).mp hb)
          | false =>
              rw [if_neg (by simp)] at hb
              exact hxr b' ((mem_toMS b' r).mp hb)

theorem replaceLeftmost_inorder (t : Node α) (x : α) (ht : t ≠ nil) :
    inorder t = (replaceLeftmost t x).1 :: (inorder t).tail ∧
    inorder (replaceLeftmost t x).2 = x :: (inorder t).tail := by
  induction t with
  | nil => exact absurd rfl ht
  | node h v l r ihl ihr =>
      cases l with
      | nil => simp [replaceLeftmost]
      | node lh lv ll lr =>
          obtain ⟨h1, h2⟩ := ihl (by simp)
          rcases hp : replaceLeftmost (node lh lv ll lr) x with ⟨s, l'⟩
          simp only [hp] at h1 h2
          have hstep : replaceLeftmost (node h v (node lh lv ll lr) r) x
              = (s, node h v l' r) := by
            simp [replaceLeftmost, hp]
          rw [hstep]
          constructor
          · show inorder (node h v (node lh lv ll lr) r)
              = s :: (inorder (node h v (node lh lv ll lr) r)).tail
            rw [inorder_node, h1]
            simp
          · show inorder (node h v l' r)
              = x :: (inorder (node h v (node lh lv ll lr) r)).tail
            rw [inorder_node, inorder_node, h2, h1]
            simp

theorem delete_nil [LinearOrder α] (v : α) :
    delete (nil : Node α) v = (false, nil) := by
  simp [delete]

theorem delete_self_right_nil [LinearOrder α] (h : Int) (x : α) (l : Node α) :
    delete (node h x l nil) x = (true, balance l) := by
  cases l <;> simp [delete]

theorem delete_self_left_nil [LinearOrder α] (h : Int) (x : α)
    (rh : Int) (rv : α) (rl rr : Node α) :
    delete (node h x nil (node rh rv rl rr)) x =
      (true, balance (node rh rv rl rr)) := by
  simp [delete]

theorem delete_self_two [LinearOrder α] (h : Int) (x : α)
    (lh : Int) (lv : α) (ll lr : Node α) (rh : Int) (rv : α) (rl rr : Node α) :
    delete (node h x (node lh lv ll lr) (node rh rv rl rr)) x =
      (true, balance (updateHeight (node 1
        (replaceLeftmost (node rh rv rl rr) x).1
        (node lh lv ll lr)
        (delete (replaceLeftmost (node rh rv rl rr) x).2 x).2))) := by
  simp [delete]

theorem delete_go_right [LinearOrder α] (h : Int) (x : α) (l r : Node α)
    (v : α) (hxv : x < v) :
    delete (node h x l r) v =
      ((delete r v).1, balance (node h x l (delete r v).2)) := by
  have hne : ¬(v = x) := ne_of_gt hxv
  cases r with
  | nil =>
      rw [delete.eq_def]
      simp [hne, hxv, delete_nil]
  | node rh rv rl rr =>
      rw [delete.eq_def]
      simp [hne, hxv]

theorem delete_go_left [LinearOrder α] (h : Int) (x : α) (l r : Node α)
    (v : α) (hvx : v < x) :
    delete (node h x l r) v =
      ((delete l v).1, balance (node h x (delete l v).2 r)) := by
  have hne : ¬(v = x) := ne_of_lt hvx
  have hnx : ¬(x < v) := not_lt_of_lt hvx
  cases l with
  | nil =>
      rw [delete.eq_def]
      simp [hne, hnx, delete_nil]
  | node lh lv ll lr =>
      rw [delete.eq_def]
      simp [hne, hnx]

theorem delete_spec [LinearOrder α] (v : α) :
    ∀ (n : Nat) (t : Node α), size t ≤ n → (inorder t).Pairwise (· ≤ ·) →
      ((delete t v).1 = true ↔ v ∈ inorder t) ∧
      toMS (delete t v).2 = (if v ∈ inorder t then (toMS t).erase v else toMS t) ∧
      (inorder (delete t v).2).Pairwise (· ≤ ·) := by
  intro n
  induction n with
  | zero =>
      intro t hsz hs
      cases t with
      | nil => simp [delete_nil]
      | node h x l r => simp [size] at hsz
  | succ n ih =>
      intro t hsz hs
      cases t with
      | nil => simp [delete_nil]
      | node h x l r =>
          rw [pairwise_le_node_iff] at hs
          obtain ⟨hl, hr, hlx, hxr⟩ := hs
          by_cases hvx : v = x
          · subst hvx
            cases r with
            | nil =>
                rw [delete_self_right_nil]
                refine ⟨by simp, ?_, ?_⟩
                · simp only [toMS_balance, toMS_node, toMS_nil]
                  rw [if_pos (by simp)]
                  rw [Multiset.erase_add_right_pos _ (by simp)]
                  simp
                · rw [inorder_balance]
                  exact hl
            | node rh rv rl rr =>
                cases l with
                | nil =>
                    rw [delete_self_left_nil]
                    refine ⟨by simp, ?_, ?_⟩
                    · simp only [toMS_balance, toMS_node, toMS_nil]
                      rw [if_pos (by simp)]
                      rw [Multiset.erase_add_right_pos _ (by simp)]
                      simp
                    · rw [inorder_balance]
                      exact hr
                | node lh lv ll lr =>
                    rw [delete_self_two]
                    obtain ⟨hq1, hq2⟩ :=
                      replaceLeftmost_inorder (node rh rv rl rr) v (by simp)
                    rcases hqp : replaceLeftmost (node rh rv rl rr) v with ⟨s, r1⟩
                    rw [hqp] at hq1 hq2
                    have hsmem : s ∈ inorder (node rh rv rl rr) := by
                      rw [hq1]
                      exact List.mem_cons_self _ _
                    have htail_sub : ∀ b ∈ (inorder (node rh rv rl rr)).tail,
                        b ∈ inorder (node rh rv rl rr) := by
                      intro b hb
                      rw [hq1]
                      exact List.mem_cons_of_mem _ hb
                    have hr1_sorted : (inorder r1).Pairwise (· ≤ ·) := by
                      rw [hq2, List.pairwise_cons]
                      constructor
                      · intro b hb
                        exact hxr b (htail_sub b hb)
                      · have := hr
                        rw [hq1, List.pairwise_cons] at this
                        exact this.2
                    have hsz1 : size r1 ≤ n := by
                      have : size r1 = size (node rh rv rl rr) := by
                        have := size_replaceLeftmost (node rh rv rl rr) v
                        rw [hqp] at this
                        exact this
                      rw [this]
                      simp [size] at hsz ⊢
                      omega
                    obtain ⟨hf, hms, hsorted⟩ := ih r1 hsz1 hr1_sorted
                    have hmem1 : v ∈ inorder r1 := by
                      rw [hq2]
                      exact List.mem_cons_self _ _
                    have hms2 : toMS (delete r1 v).2
                        = ((inorder (node rh rv rl rr)).tail : Multiset α) := by
                      rw [hms, if_pos hmem1]
                      have : toMS r1 = (v ::ₘ ((inorder (node rh rv rl rr)).tail : Multiset α)) := by
                        rw [toMS, hq2]
                        simp
                      rw [this, Multiset.erase_cons_head]
                    refine ⟨by simp, ?_, ?_⟩
                    · rw [if_pos (by simp)]
                      simp only [toMS_balance, toMS_updateHeight, toMS_node]
                      rw [hms2]
                      have hR : toMS (node rh rv rl rr)
                          = (s ::ₘ ((inorder (node rh rv rl rr)).tail : Multiset α)) := by
                        rw [toMS, hq1]
                        simp
                      rw [Multiset.erase_add_right_pos _ (by simp), Multiset.erase_cons_head]
                      have hR' : toMS rl + (rv ::ₘ toMS rr)
                          = (s ::ₘ ((inorder (node rh rv rl rr)).tail : Multiset α)) := by
                        rw [toMS_node] at hR
                        exact hR
                      rw [hR']
                    · rw [inorder_balance, inorder_updateHeight, pairwise_le_node_iff]
                      refine ⟨hl, hsorted, ?_, ?_⟩
                      · intro a ha
                        exact le_trans (hlx a ha) (hxr s hsmem)
                      · intro b hb
                        rw [← mem_toMS, hms2, Multiset.mem_coe] at hb
                        have := hr
                        rw [hq1, List.pairwise_cons] at this
                        exact this.1 b hb
          · by_cases hxv : x < v
            · rw [delete_go_right h x l r v hxv]
              have hnotl : v ∉ inorder l := by
                intro hm
                exact absurd (hlx v hm) (not_le.mpr hxv)
              have hmem_iff : v ∈ inorder (node h x l r) ↔ v ∈ inorder r := by
                simp [hnotl, hvx]
              have hszr : size r ≤ n := by
                simp [size] at hsz
                omega
              obtain ⟨hf, hms, hsorted⟩ := ih r hszr hr
              refine ⟨?_, ?_, ?_⟩
              · rw [hmem_iff]
                exact hf
              · simp only [toMS_balance, toMS_node]
                rw [hms]
                by_cases hm : v ∈ inorder r
                · rw [if_pos hm, if_pos (hmem_iff.mpr hm)]
                  rw [Multiset.erase_add_right_pos _ ?memright]
                  case memright =>
                    rw [Multiset.mem_cons]
                    exact Or.inr ((mem_toMS v r).mpr hm)
                  rw [Multiset.erase_cons_tail _ (fun hh => hvx hh.symm)]
                · rw [if_neg hm, if_neg (fun hmm => hm (hmem_iff.mp hmm))]
              · rw [inorder_balance, pairwise_le_node_iff]
                refine ⟨hl, hsorted, hlx, ?_⟩
                intro b hb
                rw [← mem_toMS, hms] at hb
                by_cases hm : v ∈ inorder r
                · rw [if_pos hm] at hb
                  exact hxr b ((mem_toMS b r).mp (Multiset.mem_of_mem_erase hb))
                · rw [if_neg hm] at hb
                  exact hxr b ((mem_toMS b r).mp hb)
            · have hvltx : v < x := lt_of_le_of_ne (le_of_not_lt hxv) hvx
              rw [delete_go_left h x l r v hvltx]
              have hnotr : v ∉ inorder r := by
                intro hm
                exact absurd (hxr v hm) (not_le.mpr hvltx)
              have hmem_iff : v ∈ inorder (node h x l r) ↔ v ∈ inorder l := by
                simp [hnotr, hvx]
              have hszl : size l ≤ n := by
                simp [size] at hsz
                omega
              obtain ⟨hf, hms, hsorted⟩ := ih l hszl hl
              refine ⟨?_, ?_, ?_⟩
              · rw [hmem_iff]
                exact hf
              · simp only [toMS_balance, toMS_node]
                rw [hms]
                by_cases hm : v ∈ inorder l
                · rw [if_pos hm, if_pos (hmem_iff.mpr hm)]
                  rw [Multiset.erase_add_left_pos _ ((mem_toMS v l).mpr hm)]
                · rw [if_neg hm, if_neg (fun hmm => hm (hmem_iff.mp hmm))]
              · rw [inorder_balance, pairwise_le_node_iff]
                refine ⟨hsorted, hr, ?_, hxr⟩
                intro a ha
                rw [← mem_toMS, hms] at ha
                by_cases hm : v ∈ inorder l
                · rw [if_pos hm] at ha
                  exact hlx a ((mem_toMS a l).mp (Multiset.mem_of_mem_erase ha))
                · rw [if_neg hm] at ha
                  exact hlx a ((mem_toMS a l).mp ha)

theorem delete_spec' [LinearOrder α] (t : Node α) (v : α)
    (hs : (inorder t).Pairwise (· ≤ ·)) :
    ((delete t v).1 = true ↔ v ∈ inorder t) ∧
    toMS (delete t v).2 = (if v ∈ inorder t then (toMS t).erase v else toMS t) ∧
    (inorder (delete t v).2).Pairwise (· ≤ ·) :=
  delete_spec v (size t) t le_rfl hs

theorem size_balance (t : Node α) : size (balance t) = size t := by
  rw [size_eq_card, size_eq_card, toMS_balance]

theorem size_updateHeight (t : Node α) : size (updateHeight t) = size t := by
  cases t <;> rfl

theorem size_delete [LinearOrder α] (t : Node α) (v : α)
    (hs : (inorder t).Pairwise (· ≤ ·)) :
    size (delete t v).2 = (if (delete t v).1 then size t - 1 else size t) := by
  obtain ⟨hf, hms, _⟩ := delete_spec' t v hs
  by_cases hm : v ∈ inorder t
  · rw [if_pos (hf.mpr hm), size_eq_card, hms, if_pos hm,
      Multiset.card_erase_of_mem ((mem_toMS v t).mpr hm), card_toMS]
    rfl
  · have hfne : (delete t v).1 = false := by
      cases hfl : (delete t v).1
      · rfl
      · exact absurd (hf.mp hfl) hm
    rw [hfne, if_neg (by simp), size_eq_card, hms, if_neg hm, card_toMS]

theorem findMin_eq_head (t : Node α) : findMin t = (inorder t).head? := by
  induction t with
  | nil => rfl
  | node h v l r ihl ihr =>
      cases hl : inorder l with
      | nil => simp [findMin, ihl, hl]
      | cons a as => simp [findMin, ihl, hl]

theorem removeBy_lt [LinearOrder α] (f : α → Ordering) (h : Int) (x : α)
    (l r : Node α) (hc : f x = Ordering.lt) :
    removeBy (node h x l r) f
      = ((removeBy l f).1, balance (node h x (removeBy l f).2 r)) := by
  cases l <;> cases r <;> simp [removeBy, hc]

theorem removeBy_gt [LinearOrder α] (f : α → Ordering) (h : Int) (x : α)
    (l r : Node α) (hc : f x = Ordering.gt) :
    removeBy (node h x l r) f
      = ((removeBy r f).1, balance (node h x l (removeBy r f).2)) := by
  cases l <;> cases r <;> simp [removeBy, hc]

theorem removeBy_spec [LinearOrder α] (f : α → Ordering) (t : Node α)
    (hs : (inorder t).Pairwise (· ≤ ·)) :
    (inorder (removeBy t f).2).Pairwise (· ≤ ·) ∧
    toMS (removeBy t f).2 ≤ toMS t ∧
    size (removeBy t f).2 =
      (if (removeBy t f).1.isSome then size t - 1 else size t) := by
  induction t with
  | nil => simp [removeBy]
  | node h x l r ihl ihr =>
      rw [pairwise_le_node_iff] at hs
      obtain ⟨hl, hr, hlx, hxr⟩ := hs
      cases hc : f x with
      | eq =>
          cases r with
          | nil =>
              cases l with
              | nil =>
                  simp only [removeBy, hc]
                  refine ⟨by simp [balance], by simp [balance], by simp [balance, size]⟩
              | node lh lv ll lr =>
                  simp only [removeBy, hc]
                  refine ⟨by rw [inorder_balance]; exact hl, ?_, ?_⟩
                  · rw [toMS_balance]
                    simp only [toMS_node]
                    exact le_add_right le_rfl
                  · rw [size_balance]
                    simp [size]
          | node rh rv rl rr =>
              cases l with
              | nil =>
                  simp only [removeBy, hc]
                  refine ⟨by rw [inorder_balance]; exact hr, ?_, ?_⟩
                  · simp only [toMS_balance, toMS_node, toMS_nil, zero_add]
                    exact Multiset.le_cons_self _ _
                  · rw [size_balance]
                    simp [size]
              | node lh lv ll lr =>
                  simp only [removeBy, hc]
                  have hhead : (inorder (node rh rv rl rr)).head? ≠ none := by
                    simp
                  rcases hhd : (inorder (node rh rv rl rr)).head? with _ | s
                  · exact absurd hhd hhead
                  have hfm : findMin (node rh rv rl rr) = some s := by
                    rw [findMin_eq_head, hhd]
                  have hsmem : s ∈ inorder (node rh rv rl rr) :=
                    List.mem_of_mem_head? (by rw [hhd]; rfl)
                  have hsle : ∀ b ∈ inorder (node rh rv rl rr), s ≤ b := by
                    intro b hb
                    rcases hcons : inorder (node rh rv rl rr) with _ | ⟨a, as⟩
                    · simp [hcons] at hb
                    · have ha : a = s := by
                        rw [hcons] at hhd
                        simpa using hhd
                      subst ha
                      rw [hcons] at hr hb
                      rw [List.pairwise_cons] at hr
                      rw [List.mem_cons] at hb
                      rcases hb with rfl | hb
                      · exact le_rfl
                      · exact hr.1 b hb
                  obtain ⟨hdf, hdm, hdsort⟩ :=
                    delete_spec' (node rh rv rl rr) s hr
                  have hdm' : toMS (delete (node rh rv rl rr) s).2
                      = (toMS (node rh rv rl rr)).erase s := by
                    rw [hdm, if_pos hsmem]
                  have hsize2 : size (delete (node rh rv rl rr) s).2
                      = size (node rh rv rl rr) - 1 := by
                    rw [size_delete _ _ hr, if_pos (hdf.mpr hsmem)]
                  refine ⟨?_, ?_, ?_⟩
                  · rw [hfm]
                    simp only [Option.getD_some]
                    rw [inorder_balance, inorder_updateHeight, pairwise_le_node_iff]
                    refine ⟨hl, hdsort, ?_, ?_⟩
                    · intro a ha
                      exact le_trans (hlx a ha) (hxr s hsmem)
                    · intro b hb
                      rw [← mem_toMS, hdm'] at hb
                      exact hsle b ((mem_toMS b _).mp (Multiset.mem_of_mem_erase hb))
                  · rw [hfm]
                    simp only [Option.getD_some]
                    rw [toMS_balance, toMS_updateHeight, toMS_node, toMS_node, hdm']
                    have hce : s ::ₘ (toMS (node rh rv rl rr)).erase s
                        = toMS (node rh rv rl rr) :=
                      Multiset.cons_erase ((mem_toMS s _).mpr hsmem)
                    calc toMS (node lh lv ll lr) + s ::ₘ (toMS (node rh rv rl rr)).erase s
                        = toMS (node lh lv ll lr) + toMS (node rh rv rl rr) := by rw [hce]
                      _ ≤ toMS (node lh lv ll lr) + (x ::ₘ toMS (node rh rv rl rr)) := by
                          exact add_le_add_left (Multiset.le_cons_self _ _) _
                  · rw [hfm]
                    simp only [Option.getD_some, Option.isSome_some, if_pos]
                    rw [size_balance, size_updateHeight]
                    simp only [size]
                    rw [hsize2]
                    simp [size]
                    omega
      | lt =>
          rw [removeBy_lt f h x l r hc]
          obtain ⟨ihs, ihm, ihsz⟩ := ihl hl
          refine ⟨?_, ?_, ?_⟩
          · rw [inorder_balance, pairwise_le_node_iff]
            refine ⟨ihs, hr, ?_, hxr⟩
            intro a ha
            rw [← mem_toMS] at ha
            exact hlx a ((mem_toMS a _).mp (Multiset.mem_of_le ihm ha))
          · rw [toMS_balance, toMS_node, toMS_node]
            exact add_le_add_right ihm _
          · rw [size_balance]
            simp only [size]
            rw [ihsz]
            rcases hio : (removeBy l f).1 with _ | w
            · simp
            · have hlpos : 1 ≤ size l := by
                cases l with
                | nil => simp [removeBy] at hio
                | node lh lv ll lr => simp [size]; omega
              simp
              omega
      | gt =>
          rw [removeBy_gt f h x l r hc]
          obtain ⟨ihs, ihm, ihsz⟩ := ihr hr
          refine ⟨?_, ?_, ?_⟩
          · rw [inorder_balance, pairwise_le_node_iff]
            refine ⟨hl, ihs, hlx, ?_⟩
            intro b hb
            rw [← mem_toMS] at hb
            exact hxr b ((mem_toMS b _).mp (Multiset.mem_of_le ihm hb))
          · rw [toMS_balance, toMS_node, toMS_node]
            refine add_le_add_left ?_ _
            exact Multiset.cons_le_cons _ ihm
          · rw [size_balance]
            simp only [size]
            rw [ihsz]
            rcases hio : (removeBy r f).1 with _ | w
            · simp
            · have hrpos : 1 ≤ size r := by
                cases r with
                | nil => simp [removeBy] at hio
                | node rh rv rl rr => simp [size]; omega
              simp
              omega

/-! ### The ordered iterators enumerate the in-order traversal -/

theorem incRun_leftSpine_append (t : Node α) :
    ∀ s : List (Node α), incRun (leftSpine t ++ s) = inorder t ++ incRun s := by
  induction t with
  | nil =>
      intro s
      simp [leftSpine]
  | node h v l r ihl ihr =>
      intro s
      rw [leftSpine, List.append_assoc, ihl, List.cons_append, List.nil_append]
      rw [show incRun (node h v l r :: s) = v :: incRun (leftSpine r ++ s) from by
        simp [incRun]]
      rw [ihr]
      simp

theorem increasingList_eq_inorder (t : Node α) : increasingList t = inorder t := by
  have hx := incRun_leftSpine_append t []
  rw [List.append_nil] at hx
  rw [increasingList, hx]
  simp [incRun]

theorem decRun_rightSpine_append (t : Node α) :
    ∀ s : List (Node α), decRun (rightSpine t ++ s) = (inorder t).reverse ++ decRun s := by
  induction t with
  | nil =>
      intro s
      simp [rightSpine]
  | node h v l r ihl ihr =>
      intro s
      rw [rightSpine, List.append_assoc, ihr, List.cons_append, List.nil_append]
      rw [show decRun (node h v l r :: s) = v :: decRun (rightSpine l ++ s) from by
        simp [decRun]]
      rw [ihl]
      simp

theorem decreasingList_eq_reverse (t : Node α) :
    decreasingList t = (inorder t).reverse := by
  have hx := decRun_rightSpine_append t []
  rw [List.append_nil] at hx
  rw [decreasingList, hx]
  simp [decRun]

/-! ### The default queue iterator is a breadth-first enumeration -/

theorem iterRun_append_step :
    ∀ (q acc : List (Node α)), iterRun (q ++ acc)
      = (q.filterMap (fun u => match u with | nil => none | node _ w _ _ => some w))
        ++ iterRun (acc ++ childrenQ q) := by
  intro q
  induction q with
  | nil =>
      intro acc
      simp [childrenQ]
  | cons t q ih =>
      intro acc
      cases t with
      | nil =>
          rw [List.cons_append,
            show iterRun (nil :: (q ++ acc)) = iterRun (q ++ acc) from by simp [iterRun],
            ih acc]
          simp [childrenQ, childList]
      | node h v l r =>
          rw [List.cons_append,
            show iterRun (node h v l r :: (q ++ acc))
              = v :: iterRun ((q ++ acc) ++ childList (node h v l r)) from by
                simp [iterRun],
            List.append_assoc, ih (acc ++ childList (node h v l r))]
          simp [childrenQ, List.append_assoc]

theorem iterRun_eq_bfsByLevels_aux :
    ∀ (n : Nat) (q : List (Node α)), iterMeasure q ≤ n → iterRun q = bfsByLevels q := by
  intro n
  induction n with
  | zero =>
      intro q hq
      cases q with
      | nil => simp [iterRun, bfsByLevels]
      | cons t q' =>
          rw [iterMeasure_cons] at hq
          omega
  | succ n ih =>
      intro q hq
      cases q with
      | nil => simp [iterRun, bfsByLevels]
      | cons t q' =>
          have hstep := iterRun_append_step (t :: q') []
          rw [List.append_nil] at hstep
          rw [hstep, List.nil_append]
          have hmeas : iterMeasure (childrenQ (t :: q')) ≤ n := by
            have hcq := iterMeasure_childrenQ (t :: q')
            simp only [List.length_cons] at hcq
            omega
          rw [ih (childrenQ (t :: q')) hmeas]
          rw [show bfsByLevels (t :: q')
            = ((t :: q').filterMap
                (fun u => match u with | nil => none | node _ w _ _ => some w))
              ++ bfsByLevels (childrenQ (t :: q')) from by rw [bfsByLevels]]

/-- The queue-based default iterator enumerates the tree level by level. -/
theorem iterRun_eq_bfsByLevels (q : List (Node α)) : iterRun q = bfsByLevels q :=
  iterRun_eq_bfsByLevels_aux (iterMeasure q) q le_rfl

theorem sum_toMS_childList (t : Node α) :
    ((childList t).map toMS).sum
      = (match t with | nil => (0 : Multiset α) | node _ _ l r => toMS l + toMS r) := by
  match t with
  | nil => simp [childList]
  | node h v l r => cases l <;> cases r <;> simp [childList]

theorem iterRun_toMS_aux :
    ∀ (n : Nat) (q : List (Node α)), iterMeasure q ≤ n →
      ((iterRun q : List α) : Multiset α) = (q.map toMS).sum := by
  intro n
  induction n with
  | zero =>
      intro q hq
      cases q with
      | nil => simp [iterRun]
      | cons t q' =>
          rw [iterMeasure_cons] at hq
          omega
  | succ n ih =>
      intro q hq
      cases q with
      | nil => simp [iterRun]
      | cons t q' =>
          cases t with
          | nil =>
              rw [show iterRun (nil :: q') = iterRun q' from by simp [iterRun]]
              rw [iterMeasure_cons] at hq
              rw [ih q' (by simpa [size, rightOf] using Nat.le_of_succ_le_succ (by omega))]
              simp
          | node h v l r =>
              rw [show iterRun (node h v l r :: q')
                = v :: iterRun (q' ++ childList (node h v l r)) from by simp [iterRun]]
              have hm : iterMeasure (q' ++ childList (node h v l r)) ≤ n := by
                have := iterStep_lt h v l r q'
                omega
              have hq2 := ih _ hm
              rw [show ((v :: iterRun (q' ++ childList (node h v l r)) : List α) : Multiset α)
                = v ::ₘ (iterRun (q' ++ childList (node h v l r)) : Multiset α) from by simp]
              rw [hq2]
              rw [List.map_append, List.sum_append, sum_toMS_childList]
              simp only [List.map_cons, List.sum_cons, toMS_node]
              simp only [← Multiset.singleton_add]
              abel

/-- The default iterator yields exactly the stored elements. -/
theorem iterList_toMS (t : Node α) : ((iterList t : List α) : Multiset α) = toMS t := by
  rw [iterList, iterRun_toMS_aux (iterMeasure [t]) [t] le_rfl]
  simp

end Node

/-! ### The container-level invariant: order and size accounting -/

/-- The invariant maintained by every mutating operation: the stored elements
are in nondecreasing in-order position and `len` matches the structural size. -/
def Inv {α : Type} [LinearOrder α] (a : AVL α) : Prop :=
  (Node.inorder a.root).Pairwise (· ≤ ·) ∧ a.len = Node.size a.root

theorem inv_new {α : Type} [LinearOrder α] : Inv (AVL.new α) :=
  ⟨by simp [AVL.new], rfl⟩

theorem inv_applyOp {α : Type} [LinearOrder α] (a : AVL α) (op : Op α)
    (h : Inv a) : Inv (applyOp a op) := by
  obtain ⟨hs, hlen⟩ := h
  cases op with
  | ins v =>
      refine ⟨Node.sorted_insert _ v hs, ?_⟩
      simp only [applyOp, AVL.insert]
      rw [hlen, Node.size_eq_card (Node.insert a.root v), Node.toMS_insert]
      simp [Node.size_eq_card]
  | insD v =>
      refine ⟨Node.sorted_insertDistinct _ v hs, ?_⟩
      simp only [applyOp, AVL.insertDistinct]
      have hms := Node.toMS_insertDistinct a.root v
      rcases hp : Node.insertDistinct a.root v with ⟨b, t'⟩
      rw [hp] at hms
      cases b with
      | true =>
          have hms' : Node.toMS t' = v ::ₘ Node.toMS a.root := by simpa using hms
          have hsz : Node.size t' = Node.size a.root + 1 := by
            rw [Node.size_eq_card, hms', Multiset.card_cons, Node.size_eq_card]
          simp [hsz, hlen]
      | false =>
          have hms' : Node.toMS t' = Node.toMS a.root := by simpa using hms
          have hsz : Node.size t' = Node.size a.root := by
            rw [Node.size_eq_card, hms', Node.size_eq_card]
          simp [hsz, hlen]
  | del v =>
      obtain ⟨hf, hms, hsort⟩ := Node.delete_spec' a.root v hs
      refine ⟨hsort, ?_⟩
      simp only [applyOp, AVL.delete]
      rw [Node.size_delete a.root v hs, hlen]
  | rem v =>
      obtain ⟨hf, hms, hsort⟩ := Node.delete_spec' a.root v hs
      refine ⟨hsort, ?_⟩
      simp only [applyOp, AVL.remove]
      rw [Node.size_delete a.root v hs, hlen]
  | remBy f =>
      obtain ⟨hsort, hle, hsz⟩ := Node.removeBy_spec f a.root hs
      refine ⟨hsort, ?_⟩
      simp only [applyOp, AVL.removeBy]
      rw [hsz, hlen]
  | clr =>
      exact ⟨by simp [applyOp, AVL.clear], rfl⟩

theorem inv_foldl {α : Type} [LinearOrder α] (ops : List (Op α)) :
    ∀ (a : AVL α), Inv a → Inv (ops.foldl applyOp a) := by
  induction ops with
  | nil => intro a h; exact h
  | cons op ops ih =>
      intro a h
      exact ih (applyOp a op) (inv_applyOp a op h)

theorem inv_buildAVL {α : Type} [LinearOrder α] (ops : List (Op α)) :
    Inv (buildAVL ops) :=
  inv_foldl ops (AVL.new α) inv_new

/-! ### Claim theorems -/

/-- Claim C1: the claim states that after any sequence of `insert`,
`insert_distinct` and `delete` operations every node satisfies the AVL balance
invariant on true heights, together with the BST ordering property. The code
violates the balance part: `insert_distinct` never calls `update_height`, so
inserting 1, 2, 3 through `insert_distinct` leaves a pure right chain whose
root's true child heights differ by 2, while the in-order enumeration (the BST
ordering) is still `[1, 2, 3]`. This theorem evaluates the code at that
failing input. -/
theorem C1_insertDistinct_breaks_balance :
    Node.wellBalanced (buildAVL [Op.insD (1 : Int), Op.insD 2, Op.insD 3]).root = false
      ∧ Node.inorder (buildAVL [Op.insD (1 : Int), Op.insD 2, Op.insD 3]).root
          = [1, 2, 3] := by
  constructor
  · decide
  · decide

/-- Claim C2: the claim states `height()` always returns the true computed
height. After `insert_distinct(1); insert_distinct(2); insert_distinct(3)`
from empty, the cached root height (returned by `height()`) is 1 while the
true structural height is 3, because `insert_distinct` omits the
`update_height` call that the spec requires after any structural change. -/
theorem C2_height_cache_stale :
    (buildAVL [Op.insD (1 : Int), Op.insD 2, Op.insD 3]).height = 1
      ∧ Node.trueHeight (buildAVL [Op.insD (1 : Int), Op.insD 2, Op.insD 3]).root = 3 := by
  constructor
  · decide
  · decide

theorem farther_mem (a b target : Int) :
    farther a b target = a ∨ farther a b target = b := by
  unfold farther
  split_ifs
  · exact Or.inl rfl
  · exact Or.inr rfl

theorem farthestTo_mem :
    ∀ (t : Node Int) (target e : Int),
      Node.farthestTo t target (fun a b => farther a b target) = some e →
        e ∈ Node.inorder t := by
  intro t
  induction t with
  | nil =>
      intro target e he
      simp [Node.farthestTo] at he
  | node h x l r ihl ihr =>
      intro target e he
      simp only [Node.farthestTo, Option.some.injEq] at he
      cases hc : compare target x with
      | eq =>
          rw [hc] at he
          rcases hfl : Node.farthestTo l target (fun a b => farther a b target)
              with _ | a <;>
            rcases hfr : Node.farthestTo r target (fun a b => farther a b target)
              with _ | b <;>
            rw [hfl, hfr] at he <;> simp only [] at he
          · subst he
            simp
          · subst he
            simp [ihr target b hfr]
          · subst he
            simp [ihl target a hfl]
          · rcases farther_mem a b target with hfm | hfm <;> rw [hfm] at he <;> subst he
            · simp [ihl target a hfl]
            · simp [ihr target b hfr]
      | lt =>
          rw [hc] at he
          rcases hfr : Node.farthestTo r target (fun a b => farther a b target)
              with _ | n <;> rw [hfr] at he <;> simp only [] at he
          · subst he
            simp
          · rcases farther_mem x n target with hfm | hfm <;> rw [hfm] at he <;> subst he
            · simp
            · simp [ihr target n hfr]
      | gt =>
          rw [hc] at he
          rcases hfl : Node.farthestTo l target (fun a b => farther a b target)
              with _ | n <;> rw [hfl] at he <;> simp only [] at he
          · subst he
            simp
          · rcases farther_mem x n target with hfm | hfm <;> rw [hfm] at he <;> subst he
            · simp
            · simp [ihl target n hfl]

/-- Claim C7 counterexample: for the tree built by inserting 0 then 100 and
target 1, `farthest` returns 0 although 100 is stored and is strictly farther
from the target by absolute difference, so the one-sided pruning of
`farthest_to` misses the true farthest element. -/
theorem C7_farthest_not_maximal :
    AVL.farthest (buildAVL [Op.ins (0 : Int), Op.ins 100]) 1 = some 0
      ∧ (100 : Int) ∈ Node.inorder (buildAVL [Op.ins (0 : Int), Op.ins 100]).root
      ∧ ((0 : Int) - 1).natAbs < ((100 : Int) - 1).natAbs := by
  refine ⟨by decide, by decide, by decide⟩

/-- Claim C7 (amended): `farthest_to` (and the `farthest` convenience) with the
absolute-difference metric returns an element that is stored in the tree, but
not necessarily one whose metric distance to the target is maximal. -/
theorem C7_farthest_returns_member (a : AVL Int) (target e : Int)
    (h : AVL.farthest a target = some e) : e ∈ Node.inorder a.root :=
  farthestTo_mem a.root target e h

theorem C7_farthest_returns_member_witness :
    AVL.farthest (buildAVL [Op.ins (0 : Int), Op.ins 100]) 1 = some 0
      ∧ (0 : Int) ∈ Node.inorder (buildAVL [Op.ins (0 : Int), Op.ins 100]).root :=
  ⟨by decide, C7_farthest_returns_member (buildAVL [Op.ins (0 : Int), Op.ins 100]) 1 0
    (by decide)⟩

/-- Claim C9 counterexample: the claim states the default iterators yield the
values in pre-order (a node before its subtrees, the whole left subtree before
the right one). On the tree built by inserting 2, 1, 3, 0 the queue-based
iterator yields `[2, 1, 3, 0]` while the claimed pre-order is `[2, 1, 0, 3]`:
the left subtree's node 0 is yielded after the right subtree's node 3. -/
theorem C9_iter_not_preorder :
    Node.iterList (buildAVL [Op.ins (2 : Int), Op.ins 1, Op.ins 3, Op.ins 0]).root
        = [2, 1, 3, 0]
      ∧ preorderSpec (buildAVL [Op.ins (2 : Int), Op.ins 1, Op.ins 3, Op.ins 0]).root
          = [2, 1, 0, 3]
      ∧ Node.iterList (buildAVL [Op.ins (2 : Int), Op.ins 1, Op.ins 3, Op.ins 0]).root
          ≠ preorderSpec (buildAVL [Op.ins (2 : Int), Op.ins 1, Op.ins 3, Op.ins 0]).root := by
  have htree : (buildAVL [Op.ins (2 : Int), Op.ins 1, Op.ins 3, Op.ins 0]).root
      = Node.node 3 2 (Node.node 2 1 (Node.node 1 0 Node.nil Node.nil) Node.nil)
          (Node.node 1 3 Node.nil Node.nil) := by
    decide
  rw [htree]
  refine ⟨?_, by decide, ?_⟩
  · simp [Node.iterList, Node.iterRun, Node.childList]
  · simp [Node.iterList, Node.iterRun, Node.childList, preorderSpec]

/-- Claim C9 (amended): the default borrowing and consuming iterators
(`iter()` / `into_iter()`) yield all stored values in breadth-first level
order — every node's value before its children's, each level left to right —
rather than depth-first pre-order. -/
theorem C9_iter_breadth_first {α : Type} (t : Node α) :
    Node.iterList t = Node.bfsByLevels [t]
      ∧ ((Node.iterList t : List α) : Multiset α) = Node.toMS t :=
  ⟨Node.iterRun_eq_bfsByLevels [t], Node.iterList_toMS t⟩

theorem size_insertDistinct {α : Type} [LinearOrder α] (t : Node α) (v : α) :
    Node.size (Node.insertDistinct t v).2 =
      (if (Node.insertDistinct t v).1 then Node.size t + 1 else Node.size t) := by
  have hms := Node.toMS_insertDistinct t v
  rcases hp : Node.insertDistinct t v with ⟨b, t'⟩
  rw [hp] at hms
  cases b with
  | false =>
      have hms' : Node.toMS t' = Node.toMS t := by simpa using hms
      have hsz : Node.size t' = Node.size t := by
        rw [Node.size_eq_card, hms', Node.size_eq_card]
      simp [hsz]
  | true =>
      have hms' : Node.toMS t' = v ::ₘ Node.toMS t := by simpa using hms
      have hsz : Node.size t' = Node.size t + 1 := by
        rw [Node.size_eq_card, hms', Multiset.card_cons, Node.size_eq_card]
      simp [hsz]

/-- Claim C4: for every tree of the structure, the ascending iterator
(`increasing` / `into_increasing`) yields all stored elements — its output is
exactly the in-order enumeration of the tree — in non-decreasing order, the
descending iterator (`decreasing` / `into_decreasing`) yields them in
non-increasing order, and the descending sequence is the exact reverse of the
ascending one. -/
theorem C4_ordered_iterators {α : Type} [LinearOrder α] (ops : List (Op α)) :
    (Node.increasingList (buildAVL ops).root).Pairwise (· ≤ ·)
      ∧ (Node.decreasingList (buildAVL ops).root).Pairwise (fun a b => b ≤ a)
      ∧ Node.decreasingList (buildAVL ops).root
          = (Node.increasingList (buildAVL ops).root).reverse
      ∧ Node.increasingList (buildAVL ops).root = Node.inorder (buildAVL ops).root := by
  obtain ⟨hs, _⟩ := inv_buildAVL ops
  refine ⟨?_, ?_, ?_, ?_⟩
  · rw [Node.increasingList_eq_inorder]
    exact hs
  · rw [Node.decreasingList_eq_reverse, List.pairwise_reverse]
    exact hs
  · rw [Node.decreasingList_eq_reverse, Node.increasingList_eq_inorder]
  · exact Node.increasingList_eq_inorder _

/-- Claim C3: after any sequence of `insert`, `insert_distinct`, `remove_by`,
`remove`, `delete` and `clear` operations, `len()` equals the number of
elements yielded by a full ascending traversal; moreover one further `insert`
grows the stored-element count by exactly one, `insert_distinct` by one
exactly when it reports an insertion, and `delete` / `remove_by` shrink it by
exactly one exactly when they report success. -/
theorem C3_len_accounting {α : Type} [LinearOrder α]
    (ops : List (Op α)) (v : α) (f : α → Ordering) :
    (buildAVL ops).len = (Node.increasingList (buildAVL ops).root).length
      ∧ Node.size ((buildAVL ops).insert v).root = Node.size (buildAVL ops).root + 1
      ∧ Node.size ((buildAVL ops).insertDistinct v).2.root
          = (if ((buildAVL ops).insertDistinct v).1
              then Node.size (buildAVL ops).root + 1 else Node.size (buildAVL ops).root)
      ∧ Node.size ((buildAVL ops).delete v).2.root
          = (if ((buildAVL ops).delete v).1
              then Node.size (buildAVL ops).root - 1 else Node.size (buildAVL ops).root)
      ∧ Node.size ((buildAVL ops).removeBy f).2.root
          = (if ((buildAVL ops).removeBy f).1.isSome
              then Node.size (buildAVL ops).root - 1 else Node.size (buildAVL ops).root) := by
  obtain ⟨hs, hlen⟩ := inv_buildAVL ops
  refine ⟨?_, ?_, ?_, ?_, ?_⟩
  · rw [Node.increasingList_eq_inorder, Node.length_inorder, hlen]
  · simp only [AVL.insert]
    rw [Node.size_eq_card (Node.insert _ v), Node.toMS_insert, Multiset.card_cons,
      Node.size_eq_card]
  · simp only [AVL.insertDistinct]
    exact size_insertDistinct (buildAVL ops).root v
  · simp only [AVL.delete]
    exact Node.size_delete (buildAVL ops).root v hs
  · simp only [AVL.removeBy]
    exact (Node.removeBy_spec f (buildAVL ops).root hs).2.2

theorem foldl_insert_spec {α : Type} [LinearOrder α] (xs : List α) :
    ∀ (a : AVL α),
      Node.toMS (xs.foldl AVL.insert a).root = Node.toMS a.root + (xs : Multiset α)
        ∧ (xs.foldl AVL.insert a).len = a.len + xs.length := by
  induction xs with
  | nil =>
      intro a
      simp
  | cons x xs ih =>
      intro a
      obtain ⟨h1, h2⟩ := ih (a.insert x)
      refine ⟨?_, ?_⟩
      · rw [List.foldl_cons, h1]
        simp only [AVL.insert, Node.toMS_insert]
        simp only [← Multiset.cons_coe]
        simp only [← Multiset.singleton_add]
        abel
      · rw [List.foldl_cons, h2]
        simp [AVL.insert]
        omega

theorem height_of_nil_root {α : Type} (b : AVL α) (h : b.root = Node.nil) :
    b.height = 0 := by
  rcases b with ⟨root, len⟩
  cases root with
  | nil => rfl
  | node hh v l r => exact absurd h (by simp)

theorem foldl_delete_empty {α : Type} [LinearOrder α] :
    ∀ (ys : List α) (a : AVL α),
      (Node.inorder a.root).Pairwise (· ≤ ·) → a.len = Node.size a.root →
      Node.toMS a.root = (ys : Multiset α) →
      (ys.foldl (fun t v => (AVL.delete t v).2) a).root = Node.nil
        ∧ (ys.foldl (fun t v => (AVL.delete t v).2) a).len = 0 := by
  intro ys
  induction ys with
  | nil =>
      intro a hs hlen hms
      have hroot : a.root = Node.nil := (Node.toMS_eq_zero_iff _).mp (by simpa using hms)
      refine ⟨hroot, ?_⟩
      rw [List.foldl_nil, hlen, hroot]
      rfl
  | cons y ys ih =>
      intro a hs hlen hms
      obtain ⟨hf, hdm, hdsort⟩ := Node.delete_spec' a.root y hs
      have hymem : y ∈ Node.inorder a.root := by
        rw [← Node.mem_toMS, hms]
        simp
      have hms' : Node.toMS (AVL.delete a y).2.root = (ys : Multiset α) := by
        simp only [AVL.delete]
        rw [hdm, if_pos hymem, hms, ← Multiset.cons_coe, Multiset.erase_cons_head]
      have hlen' : (AVL.delete a y).2.len = Node.size (AVL.delete a y).2.root := by
        simp only [AVL.delete]
        rw [Node.size_delete a.root y hs, hlen]
      rw [List.foldl_cons]
      exact ih ((AVL.delete a y).2) hdsort hlen' hms'

/-- Claim C5: for every finite sequence of values, inserting all of them into
the empty tree and then deleting all of them, in any order, returns the tree
to empty: `len()` and `height()` are both 0. -/
theorem C5_round_trip {α : Type} [LinearOrder α] (xs ys : List α) (hperm : xs.Perm ys) :
    (ys.foldl (fun t v => (AVL.delete t v).2) (xs.foldl AVL.insert (AVL.new α))).len = 0
      ∧ (ys.foldl (fun t v => (AVL.delete t v).2) (xs.foldl AVL.insert (AVL.new α))).height
          = 0 := by
  have hbuild : xs.foldl AVL.insert (AVL.new α) = buildAVL (xs.map Op.ins) := by
    rw [buildAVL, List.foldl_map]
    rfl
  obtain ⟨hsort, hlen⟩ := inv_buildAVL (xs.map Op.ins)
  rw [← hbuild] at hsort hlen
  obtain ⟨hms, _⟩ := foldl_insert_spec xs (AVL.new α)
  have hms' : Node.toMS (xs.foldl AVL.insert (AVL.new α)).root = (ys : Multiset α) := by
    rw [hms]
    have : ((xs : Multiset α)) = (ys : Multiset α) := by
      exact Multiset.coe_eq_coe.mpr hperm
    rw [← this]
    simp [AVL.new]
  obtain ⟨hroot, hlen0⟩ :=
    foldl_delete_empty ys (xs.foldl AVL.insert (AVL.new α)) hsort hlen hms'
  exact ⟨hlen0, height_of_nil_root _ hroot⟩

theorem C5_round_trip_witness :
    ([1, 2, 1] : List Int).Perm [1, 1, 2]
      ∧ (([1, 1, 2] : List Int).foldl (fun t v => (AVL.delete t v).2)
          (([1, 2, 1] : List Int).foldl AVL.insert (AVL.new Int))).len = 0
      ∧ (([1, 1, 2] : List Int).foldl (fun t v => (AVL.delete t v).2)
          (([1, 2, 1] : List Int).foldl AVL.insert (AVL.new Int))).height = 0 := by
  refine ⟨by decide, ?_, ?_⟩
  · exact (C5_round_trip [1, 2, 1] [1, 1, 2] (by decide)).1
  · exact (C5_round_trip [1, 2, 1] [1, 1, 2] (by decide)).2

theorem nearer_cases (a b t : Int) : nearer a b t = a ∨ nearer a b t = b := by
  unfold nearer
  split_ifs
  · exact Or.inl rfl
  · exact Or.inr rfl

theorem wrap32_eq_self (z : Int) (h1 : -2 ^ 31 ≤ z) (h2 : z < 2 ^ 31) :
    wrap32 z = z := by
  unfold wrap32
  omega

/-- When the subtraction does not overflow `i32`, the wrapped absolute
difference agrees with the mathematical one. -/
theorem abs32_sub_of_small (a t : Int) (h : (a - t).natAbs < 2 ^ 31) :
    abs32 (sub32 a t) = ((a - t).natAbs : Int) := by
  have hs : sub32 a t = a - t := by
    unfold sub32
    exact wrap32_eq_self _ (by omega) (by omega)
  unfold abs32
  rw [hs]
  split_ifs with h1
  · rw [wrap32_eq_self _ (by omega) (by omega)]
    omega
  · rw [wrap32_eq_self _ (by omega) (by omega)]
    omega

theorem nearer_le_left (a b t : Int) (ha : (a - t).natAbs < 2 ^ 31)
    (hb : (b - t).natAbs < 2 ^ 31) :
    (nearer a b t - t).natAbs ≤ (a - t).natAbs := by
  unfold nearer
  rw [abs32_sub_of_small a t ha, abs32_sub_of_small b t hb]
  split_ifs with hh
  · exact le_rfl
  · omega

theorem nearer_le_right (a b t : Int) (ha : (a - t).natAbs < 2 ^ 31)
    (hb : (b - t).natAbs < 2 ^ 31) :
    (nearer a b t - t).natAbs ≤ (b - t).natAbs := by
  unfold nearer
  rw [abs32_sub_of_small a t ha, abs32_sub_of_small b t hb]
  split_ifs with hh
  · omega
  · exact le_rfl

theorem mem_inorder_left {α : Type} {a : α} (h : Int) (x : α) {l : Node α}
    (r : Node α) (hm : a ∈ Node.inorder l) :
    a ∈ Node.inorder (Node.node h x l r) := by
  rw [Node.inorder_node]
  exact List.mem_append_left _ hm

theorem mem_inorder_self {α : Type} (h : Int) (x : α) (l r : Node α) :
    x ∈ Node.inorder (Node.node h x l r) := by
  rw [Node.inorder_node]
  exact List.mem_append_right _ (List.mem_cons_self _ _)

theorem mem_inorder_right {α : Type} {a : α} (h : Int) (x : α) (l : Node α)
    {r : Node α} (hm : a ∈ Node.inorder r) :
    a ∈ Node.inorder (Node.node h x l r) := by
  rw [Node.inorder_node]
  exact List.mem_append_right _ (List.mem_cons_of_mem _ hm)

theorem nearestTo_spec :
    ∀ (t : Node Int), (Node.inorder t).Pairwise (· ≤ ·) →
      ∀ (target : Int),
        (∀ x ∈ Node.inorder t, (x - target).natAbs < 2 ^ 31) → t ≠ Node.nil →
        ∃ e, Node.nearestTo t target (fun a b => nearer a b target) = some e
          ∧ e ∈ Node.inorder t
          ∧ ∀ x ∈ Node.inorder t, (e - target).natAbs ≤ (x - target).natAbs := by
  intro t
  induction t with
  | nil =>
      intro _ target _ hne
      exact absurd rfl hne
  | node h x l r ihl ihr =>
      intro hs target hrep _
      rw [Node.pairwise_le_node_iff] at hs
      obtain ⟨hl, hr, hlx, hxr⟩ := hs
      have hrep_x : (x - target).natAbs < 2 ^ 31 :=
        hrep x (mem_inorder_self h x l r)
      have hrep_l : ∀ z ∈ Node.inorder l, (z - target).natAbs < 2 ^ 31 :=
        fun z hz => hrep z (mem_inorder_left h x r hz)
      have hrep_r : ∀ z ∈ Node.inorder r, (z - target).natAbs < 2 ^ 31 :=
        fun z hz => hrep z (mem_inorder_right h x l hz)
      cases hc : compare target x with
      | eq =>
          have htx : target = x := by
            have hiff := compare_eq_iff_eq (a := target) (b := x)
            rw [hc] at hiff
            simpa using hiff
          refine ⟨x, by simp [Node.nearestTo, hc], by simp, ?_⟩
          intro z hz
          subst htx
          simp
      | lt =>
          have htx : target < x := compare_lt_iff_lt.mp hc
          cases l with
          | nil =>
              refine ⟨x, by simp [Node.nearestTo, hc], by simp, ?_⟩
              intro z hz
              simp only [Node.inorder_node, Node.inorder_nil, List.nil_append,
                List.mem_cons] at hz
              rcases hz with rfl | hz
              · exact le_rfl
              · have hxz := hxr z hz
                omega
          | node lh lv ll lr =>
              obtain ⟨n, hn_eq, hn_mem, hn_min⟩ := ihl hl target hrep_l (by simp)
              have hrep_n : (n - target).natAbs < 2 ^ 31 := hrep_l n hn_mem
              refine ⟨nearer x n target, ?_, ?_, ?_⟩
              · rw [Node.nearestTo]
                simp only [hc, hn_eq]
              · rcases nearer_cases x n target with hcc | hcc <;> rw [hcc]
                · rw [Node.inorder_node]
                  exact List.mem_append_right _ (List.mem_cons_self _ _)
                · rw [Node.inorder_node]
                  exact List.mem_append_left _ hn_mem
              · intro z hz
                rw [Node.inorder_node, List.mem_append, List.mem_cons] at hz
                rcases hz with hz | rfl | hz
                · exact le_trans (nearer_le_right x n target hrep_x hrep_n)
                    (hn_min z hz)
                · exact nearer_le_left _ _ _ hrep_x hrep_n
                · have hxz := hxr z hz
                  have h1 : (x - target).natAbs ≤ (z - target).natAbs := by omega
                  exact le_trans (nearer_le_left x n target hrep_x hrep_n) h1
      | gt =>
          have htx : x < target := compare_gt_iff_gt.mp hc
          cases r with
          | nil =>
              refine ⟨x, by simp [Node.nearestTo, hc], by simp, ?_⟩
              intro z hz
              simp only [Node.inorder_node, Node.inorder_nil, List.mem_append,
                List.mem_cons, List.not_mem_nil, or_false] at hz
              rcases hz with hz | rfl
              · have hzx := hlx z hz
                omega
              · exact le_rfl
          | node rh rv rl rr =>
              obtain ⟨n, hn_eq, hn_mem, hn_min⟩ := ihr hr target hrep_r (by simp)
              have hrep_n : (n - target).natAbs < 2 ^ 31 := hrep_r n hn_mem
              refine ⟨nearer x n target, ?_, ?_, ?_⟩
              · rw [Node.nearestTo]
                simp only [hc, hn_eq]
              · rcases nearer_cases x n target with hcc | hcc <;> rw [hcc]
                · rw [Node.inorder_node]
                  exact List.mem_append_right _ (List.mem_cons_self _ _)
                · rw [Node.inorder_node]
                  exact List.mem_append_right _ (List.mem_cons_of_mem _ hn_mem)
              · intro z hz
                rw [Node.inorder_node, List.mem_append, List.mem_cons] at hz
                rcases hz with hz | rfl | hz
                · have hzx := hlx z hz
                  have h1 : (x - target).natAbs ≤ (z - target).natAbs := by omega
                  exact le_trans (nearer_le_left x n target hrep_x hrep_n) h1
                · exact nearer_le_left _ _ _ hrep_x hrep_n
                · exact le_trans (nearer_le_right x n target hrep_x hrep_n)
                    (hn_min z hz)

theorem bruteNearest_fold_spec :
    ∀ (xs : List Int) (target a : Int),
      (∀ z ∈ a :: xs, (z - target).natAbs < 2 ^ 31) →
      ∃ b, (xs.foldl
          (fun acc x => match acc with
            | none => some x
            | some a => some (nearer a x target)) (some a)) = some b
        ∧ b ∈ a :: xs
        ∧ ∀ z ∈ a :: xs, (b - target).natAbs ≤ (z - target).natAbs := by
  intro xs
  induction xs with
  | nil =>
      intro target a _
      refine ⟨a, rfl, by simp, ?_⟩
      intro z hz
      rw [List.mem_singleton] at hz
      subst hz
      exact le_rfl
  | cons x xs ih =>
      intro target a hrep
      have hrep_a : (a - target).natAbs < 2 ^ 31 := hrep a (List.mem_cons_self _ _)
      have hrep_x : (x - target).natAbs < 2 ^ 31 :=
        hrep x (List.mem_cons_of_mem _ (List.mem_cons_self _ _))
      have hrep_nax : (nearer a x target - target).natAbs < 2 ^ 31 := by
        rcases nearer_cases a x target with hcc | hcc <;> rw [hcc]
        · exact hrep_a
        · exact hrep_x
      have hrep' : ∀ z ∈ nearer a x target :: xs, (z - target).natAbs < 2 ^ 31 := by
        intro z hz
        rcases List.mem_cons.mp hz with hz1 | hz2
        · rw [hz1]
          exact hrep_nax
        · exact hrep z (List.mem_cons_of_mem _ (List.mem_cons_of_mem _ hz2))
      obtain ⟨b, hb_eq, hb_mem, hb_min⟩ := ih target (nearer a x target) hrep'
      have h1 : (b - target).natAbs ≤ (nearer a x target - target).natAbs :=
        hb_min _ (List.mem_cons_self _ _)
      refine ⟨b, by simpa using hb_eq, ?_, ?_⟩
      · rcases List.mem_cons.mp hb_mem with hb0 | hbs
        · rw [hb0]
          rcases nearer_cases a x target with hcc | hcc <;> rw [hcc]
          · exact List.mem_cons_self _ _
          · exact List.mem_cons_of_mem _ (List.mem_cons_self _ _)
        · exact List.mem_cons_of_mem _ (List.mem_cons_of_mem _ hbs)
      · intro z hz
        rcases List.mem_cons.mp hz with hz1 | hz2
        · rw [hz1]
          exact le_trans h1 (nearer_le_left _ _ _ hrep_a hrep_x)
        · rcases List.mem_cons.mp hz2 with hz1 | hz3
          · rw [hz1]
            exact le_trans h1 (nearer_le_right _ _ _ hrep_a hrep_x)
          · exact hb_min z (List.mem_cons_of_mem _ hz3)

theorem bruteNearest_spec (xs : List Int) (target : Int)
    (hrep : ∀ z ∈ xs, (z - target).natAbs < 2 ^ 31) (hne : xs ≠ []) :
    ∃ b, bruteNearest xs target = some b ∧ b ∈ xs
      ∧ ∀ z ∈ xs, (b - target).natAbs ≤ (z - target).natAbs := by
  cases xs with
  | nil => exact absurd rfl hne
  | cons a xs =>
      obtain ⟨b, hb_eq, hb_mem, hb_min⟩ := bruteNearest_fold_spec xs target a hrep
      exact ⟨b, by simpa [bruteNearest] using hb_eq, hb_mem, hb_min⟩

/-- Claim C6 counterexample: the metric of `impl_nearer_signed` computes
`abs(self - target)` in `i32` arithmetic, which wraps in release builds (and
panics in debug). On the tree from inserting `i32::MIN` and `0` with target
`i32::MAX`, the wrapped distance of `i32::MIN` is 1, so `nearest` returns
`i32::MIN` although the stored element `0` is strictly closer in true absolute
difference — the returned element does not minimize the distance. -/
theorem C6_nearest_not_minimal_overflow :
    AVL.nearest (buildAVL [Op.ins (-2147483648 : Int), Op.ins 0]) 2147483647
        = some (-2147483648)
      ∧ (0 : Int) ∈ Node.inorder (buildAVL [Op.ins (-2147483648 : Int), Op.ins 0]).root
      ∧ ((0 : Int) - 2147483647).natAbs
          < ((-2147483648 : Int) - 2147483647).natAbs := by
  refine ⟨by decide, by decide, by decide⟩

/-- Claim C6 (amended): on every non-empty tree of the structure over machine
integers, provided no `i32` subtraction overflows — every stored element's
absolute difference from the target is below `2^31` — `nearest` (that is,
`nearest_to` with the absolute-difference metric) returns a stored element
whose distance to the target is minimal over all stored elements, and it
agrees in distance with the brute-force linear scan over the full ascending
traversal. With overflow, the wrapping `i32` arithmetic can select an element
that is not minimal (and debug builds panic). -/
theorem C6_nearest_correct (ops : List (Op Int)) (target : Int)
    (hne : (buildAVL ops).root ≠ Node.nil)
    (hrep : ∀ x ∈ Node.inorder (buildAVL ops).root,
      (x - target).natAbs < 2 ^ 31) :
    ∃ e, AVL.nearest (buildAVL ops) target = some e
      ∧ e ∈ Node.inorder (buildAVL ops).root
      ∧ (∀ x ∈ Node.inorder (buildAVL ops).root,
          (e - target).natAbs ≤ (x - target).natAbs)
      ∧ ∀ b, bruteNearest (Node.increasingList (buildAVL ops).root) target = some b →
          (e - target).natAbs = (b - target).natAbs := by
  obtain ⟨hs, _⟩ := inv_buildAVL ops
  obtain ⟨e, he_eq, he_mem, he_min⟩ :=
    nearestTo_spec (buildAVL ops).root hs target hrep hne
  have hlist_ne : Node.inorder (buildAVL ops).root ≠ [] := by
    intro hnil
    exact hne ((Node.inorder_eq_nil_iff _).mp hnil)
  obtain ⟨b, hb_eq, hb_mem, hb_min⟩ :=
    bruteNearest_spec (Node.inorder (buildAVL ops).root) target hrep hlist_ne
  refine ⟨e, he_eq, he_mem, he_min, ?_⟩
  intro b' hb'
  rw [Node.increasingList_eq_inorder, hb_eq] at hb'
  have hbb : b' = b := by
    simpa using hb'.symm
  subst hbb
  exact le_antisymm (he_min b' hb_mem) (hb_min e he_mem)

theorem C6_nearest_correct_witness :
    ((buildAVL [Op.ins (1 : Int), Op.ins 3]).root ≠ Node.nil
        ∧ ∀ x ∈ Node.inorder (buildAVL [Op.ins (1 : Int), Op.ins 3]).root,
            (x - 2).natAbs < 2 ^ 31)
      ∧ ∃ e, AVL.nearest (buildAVL [Op.ins (1 : Int), Op.ins 3]) 2 = some e
          ∧ e ∈ Node.inorder (buildAVL [Op.ins (1 : Int), Op.ins 3]).root
          ∧ (∀ x ∈ Node.inorder (buildAVL [Op.ins (1 : Int), Op.ins 3]).root,
              (e - 2).natAbs ≤ (x - 2).natAbs)
          ∧ ∀ b, bruteNearest
                (Node.increasingList (buildAVL [Op.ins (1 : Int), Op.ins 3]).root) 2
              = some b → (e - 2).natAbs = (b - 2).natAbs :=
  ⟨⟨by decide, by decide⟩,
    C6_nearest_correct [Op.ins 1, Op.ins 3] 2 (by decide) (by decide)⟩

theorem keysOf_nil {K V : Type} : keysOf (Node.nil : Node (K × V)) = [] := rfl

theorem keysOf_node {K V : Type} (h : Int) (p : K × V) (l r : Node (K × V)) :
    keysOf (Node.node h p l r) = keysOf l ++ p.1 :: keysOf r := by
  simp [keysOf]

theorem keysOf_balance {K V : Type} (t : Node (K × V)) :
    keysOf (Node.balance t) = keysOf t := by
  simp [keysOf, Node.inorder_balance]

theorem mem_keysOf_node {K V : Type} (k' : K) (h : Int) (p : K × V)
    (l r : Node (K × V)) :
    k' ∈ keysOf (Node.node h p l r)
      ↔ k' ∈ keysOf l ∨ k' = p.1 ∨ k' ∈ keysOf r := by
  rw [keysOf_node, List.mem_append, List.mem_cons]

theorem pairwise_keys_node_iff {K V : Type} [LinearOrder K] (h : Int)
    (p : K × V) (l r : Node (K × V)) :
    (keysOf (Node.node h p l r)).Pairwise (· < ·) ↔
      (keysOf l).Pairwise (· < ·) ∧ (keysOf r).Pairwise (· < ·) ∧
      (∀ k ∈ keysOf l, k < p.1) ∧ (∀ k ∈ keysOf r, p.1 < k) := by
  rw [keysOf_node, List.pairwise_append]
  simp only [List.pairwise_cons, List.mem_cons]
  constructor
  · rintro ⟨hl, ⟨hpr, hr⟩, hcross⟩
    exact ⟨hl, hr, fun k hk => hcross k hk p.1 (Or.inl rfl), hpr⟩
  · rintro ⟨hl, hr, hlp, hpr⟩
    refine ⟨hl, ⟨hpr, hr⟩, ?_⟩
    rintro a ha b (rfl | hb)
    · exact hlp a ha
    · exact lt_trans (hlp a ha) (hpr b hb)

theorem filter_key_eq_nil {K V : Type} [LinearOrder K] (k : K)
    (t : Node (K × V)) (hne : ∀ k' ∈ keysOf t, k' ≠ k) :
    (Node.inorder t).filter (fun q => decide (q.1 = k)) = [] := by
  rw [List.filter_eq_nil]
  intro q hq
  simp only [decide_eq_true_eq]
  exact hne q.1 (List.mem_map_of_mem _ hq)

theorem insertDistinctBy_pairCmp_spec {K V : Type} [LinearOrder K] (k : K) (v : V) :
    ∀ (t : Node (K × V)), (keysOf t).Pairwise (· < ·) →
      (keysOf (Node.insertDistinctBy pairCmp t (k, v)).2).Pairwise (· < ·)
      ∧ ((Node.insertDistinctBy pairCmp t (k, v)).1 = true ↔ k ∉ keysOf t)
      ∧ (Node.inorder (Node.insertDistinctBy pairCmp t (k, v)).2).filter
          (fun q => decide (q.1 = k)) = [(k, v)]
      ∧ Node.size (Node.insertDistinctBy pairCmp t (k, v)).2
          = (if (Node.insertDistinctBy pairCmp t (k, v)).1
              then Node.size t + 1 else Node.size t)
      ∧ (∀ k', k' ∈ keysOf (Node.insertDistinctBy pairCmp t (k, v)).2 →
          k' = k ∨ k' ∈ keysOf t) := by
  intro t
  induction t with
  | nil =>
      intro _
      refine ⟨by simp [Node.insertDistinctBy, keysOf], ?_, ?_, ?_, ?_⟩
      · simp [Node.insertDistinctBy, keysOf]
      · simp [Node.insertDistinctBy]
      · simp [Node.insertDistinctBy, Node.size]
      · intro k' hk'
        simp [Node.insertDistinctBy, keysOf] at hk'
        exact Or.inl hk'
  | node h x l r ihl ihr =>
      intro hs
      rw [pairwise_keys_node_iff] at hs
      obtain ⟨hl, hr, hlp, hpr⟩ := hs
      cases hcc : compare k x.1 with
      | eq =>
          have hk : k = x.1 := by
            have hiff := compare_eq_iff_eq (a := k) (b := x.1)
            rw [hcc] at hiff
            simpa using hiff
          have hc : pairCmp (k, v) x = Ordering.eq := hcc
          simp only [Node.insertDistinctBy, hc]
          refine ⟨?_, ?_, ?_, ?_, ?_⟩
          · rw [keysOf_balance, pairwise_keys_node_iff]
            exact ⟨hl, hr, by rw [← hk] at hlp; exact hlp, by rw [← hk] at hpr; exact hpr⟩
          · simp only [Bool.false_eq_true, false_iff, not_not]
            rw [mem_keysOf_node]
            exact Or.inr (Or.inl hk)
          · rw [Node.inorder_balance, Node.inorder_node, List.filter_append]
            rw [filter_key_eq_nil k l (fun k' hk' => ne_of_lt (hk ▸ hlp k' hk'))]
            rw [List.filter_cons]
            simp only [decide_eq_true_eq]
            rw [if_pos trivial]
            rw [filter_key_eq_nil k r
              (fun k' hk' => (ne_of_gt (hk ▸ hpr k' hk')))]
            simp
          · rw [Node.size_balance]
            simp [Node.size]
          · intro k' hk'
            rw [keysOf_balance, mem_keysOf_node] at hk'
            rw [mem_keysOf_node]
            rcases hk' with hk' | hk' | hk'
            · exact Or.inr (Or.inl hk')
            · exact Or.inl (hk ▸ hk')
            · exact Or.inr (Or.inr (Or.inr hk'))
      | lt =>
          have hklt : k < x.1 := compare_lt_iff_lt.mp hcc
          have hc : pairCmp (k, v) x = Ordering.lt := hcc
          obtain ⟨ih1, ih2, ih3, ih4, ih5⟩ := ihl hl
          rcases hp : Node.insertDistinctBy pairCmp l (k, v) with ⟨b, l'⟩
          rw [hp] at ih1 ih2 ih3 ih4 ih5
          simp only [Node.insertDistinctBy, hc, hp]
          refine ⟨?_, ?_, ?_, ?_, ?_⟩
          · rw [keysOf_balance, pairwise_keys_node_iff]
            refine ⟨ih1, hr, ?_, hpr⟩
            intro k' hk'
            rcases ih5 k' hk' with rfl | hk2
            · exact hklt
            · exact hlp k' hk2
          · rw [ih2]
            constructor
            · intro hnotl hmem
              rw [mem_keysOf_node] at hmem
              rcases hmem with hm | hm | hm
              · exact hnotl hm
              · exact absurd hm (ne_of_lt hklt)
              · exact absurd hklt (not_lt_of_lt (hpr k hm))
            · intro hnot hm
              exact hnot (by rw [mem_keysOf_node]; exact Or.inl hm)
          · rw [Node.inorder_balance, Node.inorder_node, List.filter_append, ih3,
              List.filter_cons]
            simp only [decide_eq_true_eq]
            rw [if_neg (fun hh => absurd hh.symm (ne_of_lt hklt))]
            rw [filter_key_eq_nil k r
              (fun k' hk' => ne_of_gt (lt_trans hklt (hpr k' hk')))]
            simp
          · rw [Node.size_balance]
            simp only [Node.size]
            rw [ih4]
            cases b <;> simp <;> omega
          · intro k' hk'
            rw [keysOf_balance, mem_keysOf_node] at hk'
            rw [mem_keysOf_node]
            rcases hk' with hk' | hk' | hk'
            · rcases ih5 k' hk' with rfl | hk2
              · exact Or.inl rfl
              · exact Or.inr (Or.inl hk2)
            · exact Or.inr (Or.inr (Or.inl hk'))
            · exact Or.inr (Or.inr (Or.inr hk'))
      | gt =>
          have hkgt : x.1 < k := compare_gt_iff_gt.mp hcc
          have hc : pairCmp (k, v) x = Ordering.gt := hcc
          obtain ⟨ih1, ih2, ih3, ih4, ih5⟩ := ihr hr
          rcases hp : Node.insertDistinctBy pairCmp r (k, v) with ⟨b, r'⟩
          rw [hp] at ih1 ih2 ih3 ih4 ih5
          simp only [Node.insertDistinctBy, hc, hp]
          refine ⟨?_, ?_, ?_, ?_, ?_⟩
          · rw [keysOf_balance, pairwise_keys_node_iff]
            refine ⟨hl, ih1, hlp, ?_⟩
            intro k' hk'
            rcases ih5 k' hk' with rfl | hk2
            · exact hkgt
            · exact hpr k' hk2
          · rw [ih2]
            constructor
            · intro hnotr hmem
              rw [mem_keysOf_node] at hmem
              rcases hmem with hm | hm | hm
              · exact absurd hkgt (not_lt_of_lt (hlp k hm))
              · exact absurd hm (ne_of_gt hkgt)
              · exact hnotr hm
            · intro hnot hm
              exact hnot (by rw [mem_keysOf_node]; exact Or.inr (Or.inr hm))
          · rw [Node.inorder_balance, Node.inorder_node, List.filter_append,
              filter_key_eq_nil k l (fun k' hk' => ne_of_lt (lt_trans (hlp k' hk') hkgt)),
              List.filter_cons]
            simp only [decide_eq_true_eq]
            rw [if_neg (fun hh => absurd hh.symm (ne_of_gt hkgt))]
            rw [ih3]
            simp
          · rw [Node.size_balance]
            simp only [Node.size]
            rw [ih4]
            cases b <;> simp <;> omega
          · intro k' hk'
            rw [keysOf_balance, mem_keysOf_node] at hk'
            rw [mem_keysOf_node]
            rcases hk' with hk' | hk' | hk'
            · exact Or.inr (Or.inl hk')
            · exact Or.inr (Or.inr (Or.inl hk'))
            · rcases ih5 k' hk' with rfl | hk2
              · exact Or.inl rfl
              · exact Or.inr (Or.inr (Or.inr hk2))

theorem minv_foldl {K V : Type} [LinearOrder K] (ps : List (K × V)) :
    ∀ (m : AVL (K × V)), (keysOf m.root).Pairwise (· < ·) →
      (keysOf ((ps.foldl (fun m q => (mapInsert m q.1 q.2).2) m).root)).Pairwise (· < ·) := by
  induction ps with
  | nil =>
      intro m hm
      exact hm
  | cons p ps ih =>
      intro m hm
      rw [List.foldl_cons]
      exact ih _ ((insertDistinctBy_pairCmp_spec p.1 p.2 m.root hm).1)

/-- Claim C8: on a map built by any sequence of key-value insertions,
`insert_distinct` with an element whose key is already stored overwrites the
stored value in place and reports "not newly inserted": after inserting
`(k, v1)` and then `(k, v2)`, the second call returns `false`, exactly one
entry with key `k` remains and its value is `v2`, and `len` is unchanged by
the second call. (`BTreeMap::insert` is exactly `insert_distinct` of the
`Pair` ordered by key alone.) -/
theorem C8_insertDistinct_upsert {K V : Type} [LinearOrder K]
    (ps : List (K × V)) (k : K) (v1 v2 : V) :
    (mapInsert (mapInsert (ps.foldl (fun m q => (mapInsert m q.1 q.2).2)
          (AVL.new (K × V))) k v1).2 k v2).1 = false
      ∧ (Node.inorder (mapInsert (mapInsert (ps.foldl (fun m q => (mapInsert m q.1 q.2).2)
            (AVL.new (K × V))) k v1).2 k v2).2.root).filter (fun q => decide (q.1 = k))
          = [(k, v2)]
      ∧ (mapInsert (mapInsert (ps.foldl (fun m q => (mapInsert m q.1 q.2).2)
            (AVL.new (K × V))) k v1).2 k v2).2.len
          = (mapInsert (ps.foldl (fun m q => (mapInsert m q.1 q.2).2)
              (AVL.new (K × V))) k v1).2.len := by
  have hm0 : (keysOf ((ps.foldl (fun m q => (mapInsert m q.1 q.2).2)
      (AVL.new (K × V))).root)).Pairwise (· < ·) :=
    minv_foldl ps (AVL.new (K × V)) (by simp [AVL.new, keysOf])
  obtain ⟨h1a, h1b, h1c, h1d, h1e⟩ :=
    insertDistinctBy_pairCmp_spec k v1
      ((ps.foldl (fun m q => (mapInsert m q.1 q.2).2) (AVL.new (K × V))).root) hm0
  have hm1root : (mapInsert (ps.foldl (fun m q => (mapInsert m q.1 q.2).2)
      (AVL.new (K × V))) k v1).2.root
      = (Node.insertDistinctBy pairCmp
          ((ps.foldl (fun m q => (mapInsert m q.1 q.2).2) (AVL.new (K × V))).root)
          (k, v1)).2 := rfl
  have hkmem : k ∈ keysOf (mapInsert (ps.foldl (fun m q => (mapInsert m q.1 q.2).2)
      (AVL.new (K × V))) k v1).2.root := by
    rw [hm1root]
    have hfk : (k, v1) ∈ (Node.inorder (Node.insertDistinctBy pairCmp
        ((ps.foldl (fun m q => (mapInsert m q.1 q.2).2) (AVL.new (K × V))).root)
        (k, v1)).2).filter (fun q => decide (q.1 = k)) := by
      rw [h1c]
      exact List.mem_singleton.mpr rfl
    have hmem := List.mem_of_mem_filter hfk
    exact List.mem_map_of_mem _ hmem
  obtain ⟨h2a, h2b, h2c, h2d, h2e⟩ :=
    insertDistinctBy_pairCmp_spec k v2
      ((mapInsert (ps.foldl (fun m q => (mapInsert m q.1 q.2).2)
        (AVL.new (K × V))) k v1).2.root) (hm1root ▸ h1a)
  have hflag : (Node.insertDistinctBy pairCmp
      ((mapInsert (ps.foldl (fun m q => (mapInsert m q.1 q.2).2)
        (AVL.new (K × V))) k v1).2.root) (k, v2)).1 = false := by
    rcases hb : (Node.insertDistinctBy pairCmp
        ((mapInsert (ps.foldl (fun m q => (mapInsert m q.1 q.2).2)
          (AVL.new (K × V))) k v1).2.root) (k, v2)).1 with _ | _
    · exact hb
    · rw [hb] at h2b
      exact absurd hkmem (h2b.mp rfl)
  refine ⟨hflag, h2c, ?_⟩
  show (if (Node.insertDistinctBy pairCmp _ (k, v2)).1 = true then _ + 1 else _) = _
  rw [hflag]
  simp

/-- Claim C10: `union(a, b)` contains exactly the multiset union of the two
trees' elements (duplicates across the inputs are kept, because the merge uses
the duplicate-allowing `insert`), and its `len()` is the sum of the lengths. -/
theorem C10_union_multiset {α : Type} [LinearOrder α] (opsa opsb : List (Op α)) :
    Node.toMS (AVL.union (buildAVL opsa) (buildAVL opsb)).root
        = Node.toMS (buildAVL opsa).root + Node.toMS (buildAVL opsb).root
      ∧ (AVL.union (buildAVL opsa) (buildAVL opsb)).len
          = (buildAVL opsa).len + (buildAVL opsb).len := by
  obtain ⟨hsa, hla⟩ := inv_buildAVL opsa
  obtain ⟨hsb, hlb⟩ := inv_buildAVL opsb
  have hlen_iter : ∀ (t : Node α), (Node.iterList t).length = Node.size t := by
    intro t
    have hms := Node.iterList_toMS t
    have hcard := congrArg Multiset.card hms
    simpa [Node.size_eq_card] using hcard
  rw [AVL.union]
  split_ifs with hcmp
  · obtain ⟨h1, h2⟩ := foldl_insert_spec (Node.iterList (buildAVL opsb).root)
      (buildAVL opsa)
    constructor
    · rw [h1, Node.iterList_toMS]
    · rw [h2, hlen_iter, hlb]
  · obtain ⟨h1, h2⟩ := foldl_insert_spec (Node.iterList (buildAVL opsa).root)
      (buildAVL opsb)
    constructor
    · rw [h1, Node.iterList_toMS]
      exact add_comm _ _
    · rw [h2, hlen_iter, hla]
      omega

end BTrees
